import Mathlib

/-!
# Verification of the Delta language parser (`src/parser.rs`)

A shallow embedding of the recursive-descent parser of the Delta scripting
language, together with proofs of the specified properties.

The token and AST types mirror `Token` (from the lexer) and the AST node
types (`Program`, `Statement`, `Expression`, `BinaryOperator`) exactly as
the parser consumes and produces them.  The parser itself is a `Parser`
record (token vector plus cursor index) and one Lean function per Rust
function, with the mutually recursive statement layer and the expression
folding loops written with an explicit fuel parameter: a result of `none`
means the fuel ran out, `some (.error e)` is a parse error, and
`some (.ok (a, p))` is success with the updated cursor.
-/

/-- The lexer's token type.  Payload-free variants are the keyword,
operator and layout markers; `Identifier`, `Number` and `String` carry a
payload, which the parser's discriminant comparisons ignore. -/
inductive Token where
  | Eof
  | Newline
  | Indent
  | Dedent
  | Let
  | Be
  | Show
  | When
  | Then
  | Otherwise
  | Define
  | With
  | End
  | Identifier (name : String)
  | Number (n : Int)
  | String (s : String)
  | Plus
  | Minus
  | Multiply
  | Divide
  | IsGreaterThan
  | IsLessThan
  | IsGreaterThanOrEqual
  | IsLessThanOrEqual
  | IsEqual
  | IsNotEqual
deriving DecidableEq, Repr

/-- The binary operator enumeration of the AST. -/
inductive BinaryOperator where
  | Add
  | Subtract
  | Multiply
  | Divide
  | GreaterThan
  | LessThan
  | GreaterThanOrEqual
  | LessThanOrEqual
  | Equal
  | NotEqual
deriving DecidableEq, Repr

/-- Expression AST nodes: literals, identifier references and binary
operations (`BinaryOperation { left, operator, right }` inlined into the
constructor). -/
inductive Expression where
  | Number (n : Int)
  | String (s : String)
  | Identifier (name : String)
  | BinaryOp (left : Expression) (operator : BinaryOperator) (right : Expression)
deriving DecidableEq, Repr

/-- Statement AST nodes; the fields of the Rust payload structs
(`LetStatement`, `ShowStatement`, `WhenStatement`, `FunctionDef`) are
inlined into the constructors in declaration order. -/
inductive Statement where
  | Let (identifier : String) (value : Expression)
  | Show (value : Expression)
  | When (condition : Expression) (then_block : List Statement)
      (otherwise_block : Option (List Statement))
  | FunctionDef (name : String) (parameters : List String)
      (body : List Statement)
  | Expression (expr : Expression)

/-- The root AST node. -/
structure Program where
  statements : List Statement

/-- The parser state: the token vector and the cursor index. -/
structure Parser where
  tokens : List Token
  current : Nat

/-- `Parser::current_token`: the token at the cursor, or `Eof` when the
cursor is at or past the end (`self.tokens.get(self.current).unwrap_or(&Token::Eof)`). -/
def Parser.current_token (p : Parser) : Token :=
  p.tokens.getD p.current Token.Eof

/-- `Parser::advance`: move the cursor forward by one if not already at the
end. -/
def Parser.advance (p : Parser) : Parser :=
  if p.current < p.tokens.length then { p with current := p.current + 1 } else p

/-- The discriminant of a token (`std::mem::discriminant`): a code that
identifies the variant and ignores any payload. -/
def Token.kind : Token → Nat
  | .Eof => 0
  | .Newline => 1
  | .Indent => 2
  | .Dedent => 3
  | .Let => 4
  | .Be => 5
  | .Show => 6
  | .When => 7
  | .Then => 8
  | .Otherwise => 9
  | .Define => 10
  | .With => 11
  | .End => 12
  | .Identifier _ => 13
  | .Number _ => 14
  | .String _ => 15
  | .Plus => 16
  | .Minus => 17
  | .Multiply => 18
  | .Divide => 19
  | .IsGreaterThan => 20
  | .IsLessThan => 21
  | .IsGreaterThanOrEqual => 22
  | .IsLessThanOrEqual => 23
  | .IsEqual => 24
  | .IsNotEqual => 25

/-- Alias for the string type, usable inside the `Token` namespace where the
bare name `String` would resolve to the constructor `Token.String`. -/
abbrev Text := String

/-- The `{:?}` (Debug) rendering of a token, used in error messages. -/
def Token.fmt : Token → Text
  | .Eof => "Eof"
  | .Newline => "Newline"
  | .Indent => "Indent"
  | .Dedent => "Dedent"
  | .Let => "Let"
  | .Be => "Be"
  | .Show => "Show"
  | .When => "When"
  | .Then => "Then"
  | .Otherwise => "Otherwise"
  | .Define => "Define"
  | .With => "With"
  | .End => "End"
  | .Identifier name => "Identifier(\"" ++ name ++ "\")"
  | .Number n => "Number(" ++ toString n ++ ")"
  | .String s => "String(\"" ++ s ++ "\")"
  | .Plus => "Plus"
  | .Minus => "Minus"
  | .Multiply => "Multiply"
  | .Divide => "Divide"
  | .IsGreaterThan => "IsGreaterThan"
  | .IsLessThan => "IsLessThan"
  | .IsGreaterThanOrEqual => "IsGreaterThanOrEqual"
  | .IsLessThanOrEqual => "IsLessThanOrEqual"
  | .IsEqual => "IsEqual"
  | .IsNotEqual => "IsNotEqual"

/-- `Parser::expect`: compare the discriminant of the current token with
that of the expected token; on a match advance and succeed, otherwise fail
with `Expected {:?}, found {:?}` without advancing. -/
def Parser.expect (p : Parser) (expected : Token) : Except String Parser :=
  if p.current_token.kind = expected.kind then
    .ok p.advance
  else
    .error ("Expected " ++ expected.fmt ++ ", found " ++ p.current_token.fmt)

/-- Iteration core of `Parser::skip_newlines`, structurally recursive on a
step budget.  `skip_newlines` instantiates the budget with the number of
remaining tokens, which `skip_newlines_go_spec` proves is always enough, so
the pair is exactly the Rust `while` loop. -/
def skip_newlines_go : Nat → Parser → Parser
  | 0, p => p
  | n + 1, p =>
    if p.current_token = Token.Newline then skip_newlines_go n p.advance else p

/-- `Parser::skip_newlines`: advance past consecutive `Newline` tokens. -/
def Parser.skip_newlines (p : Parser) : Parser :=
  skip_newlines_go (p.tokens.length - p.current) p

/-- Cursor lemma: in range, `current_token` is the vector entry at the
cursor. -/
theorem Parser.current_token_of_lt (p : Parser) (h : p.current < p.tokens.length) :
    p.current_token = p.tokens.get ⟨p.current, h⟩ := by
  simp [Parser.current_token, List.getD_eq_getElem?_getD, List.getElem?_eq_getElem h]

/-- Cursor lemma: at or past the end, `current_token` is `Eof`. -/
theorem Parser.current_token_of_le (p : Parser) (h : p.tokens.length ≤ p.current) :
    p.current_token = Token.Eof := by
  simp [Parser.current_token, List.getD_eq_getElem?_getD, List.getElem?_eq_none h]

/-- Cursor lemma: a non-`Eof` current token means the cursor is in range. -/
theorem Parser.lt_of_current_token_ne_eof (p : Parser)
    (h : p.current_token ≠ Token.Eof) : p.current < p.tokens.length := by
  by_contra hn
  exact h (p.current_token_of_le (Nat.le_of_not_lt hn))

@[simp] theorem Parser.advance_tokens (p : Parser) : p.advance.tokens = p.tokens := by
  unfold Parser.advance; split <;> rfl

theorem Parser.advance_current_le (p : Parser) :
    p.advance.current ≤ p.current + 1 := by
  unfold Parser.advance; split
  · exact Nat.le_refl _
  · exact Nat.le_succ _

theorem Parser.advance_current_ge (p : Parser) :
    p.current ≤ p.advance.current := by
  unfold Parser.advance; split
  · exact Nat.le_succ _
  · exact Nat.le_refl _

theorem Parser.advance_current_of_lt (p : Parser) (h : p.current < p.tokens.length) :
    p.advance.current = p.current + 1 := by
  unfold Parser.advance; rw [if_pos h]

theorem Parser.advance_of_le (p : Parser) (h : p.tokens.length ≤ p.current) :
    p.advance = p := by
  unfold Parser.advance; rw [if_neg (Nat.not_lt.mpr h)]

theorem Parser.advance_current_le_length (p : Parser) (h : p.current ≤ p.tokens.length) :
    p.advance.current ≤ p.tokens.length := by
  unfold Parser.advance; split
  · exact (by assumption : p.current < p.tokens.length)
  · exact h

@[simp] theorem skip_newlines_go_tokens (n : Nat) (p : Parser) :
    (skip_newlines_go n p).tokens = p.tokens := by
  induction n generalizing p with
  | zero => rfl
  | succ n ih =>
    unfold skip_newlines_go
    split
    · rw [ih, Parser.advance_tokens]
    · rfl

theorem skip_newlines_go_current_ge (n : Nat) (p : Parser) :
    p.current ≤ (skip_newlines_go n p).current := by
  induction n generalizing p with
  | zero => exact Nat.le_refl _
  | succ n ih =>
    unfold skip_newlines_go
    split
    · exact Nat.le_trans p.advance_current_ge (ih p.advance)
    · exact Nat.le_refl _

theorem skip_newlines_go_current_le_length (n : Nat) (p : Parser)
    (h : p.current ≤ p.tokens.length) :
    (skip_newlines_go n p).current ≤ p.tokens.length := by
  induction n generalizing p with
  | zero => exact h
  | succ n ih =>
    unfold skip_newlines_go
    split
    · have := ih p.advance (by rw [Parser.advance_tokens]; exact p.advance_current_le_length h)
      rwa [Parser.advance_tokens] at this
    · exact h

/-- `skip_newlines` satisfies the Rust loop's unfolding equation: the step
budget `tokens.length - current` never runs out, because each skipped
newline lies strictly inside the token vector. -/
theorem Parser.skip_newlines_spec (p : Parser) :
    p.skip_newlines =
      if p.current_token = Token.Newline then p.advance.skip_newlines else p := by
  have hadv : p.advance.skip_newlines =
      skip_newlines_go (p.tokens.length - p.advance.current) p.advance := by
    unfold Parser.skip_newlines; rw [Parser.advance_tokens]
  by_cases h : p.current_token = Token.Newline
  · rw [if_pos h, hadv]
    have hlt : p.current < p.tokens.length :=
      p.lt_of_current_token_ne_eof (by rw [h]; exact fun hc => Token.noConfusion hc)
    have hrem : p.tokens.length - p.current = (p.tokens.length - p.advance.current) + 1 := by
      rw [p.advance_current_of_lt hlt]; omega
    show skip_newlines_go (p.tokens.length - p.current) p = _
    rw [hrem]
    show (if p.current_token = Token.Newline then
        skip_newlines_go (p.tokens.length - p.advance.current) p.advance else p) = _
    rw [if_pos h]
  · rw [if_neg h]
    show skip_newlines_go (p.tokens.length - p.current) p = p
    cases hn : p.tokens.length - p.current with
    | zero => rfl
    | succ m =>
      show (if p.current_token = Token.Newline then
          skip_newlines_go m p.advance else p) = p
      rw [if_neg h]

theorem Parser.skip_newlines_tokens (p : Parser) :
    p.skip_newlines.tokens = p.tokens := by
  unfold Parser.skip_newlines; exact skip_newlines_go_tokens _ _

theorem Parser.skip_newlines_current_ge (p : Parser) :
    p.current ≤ p.skip_newlines.current := by
  unfold Parser.skip_newlines; exact skip_newlines_go_current_ge _ _

theorem Parser.skip_newlines_current_le_length (p : Parser)
    (h : p.current ≤ p.tokens.length) :
    p.skip_newlines.current ≤ p.tokens.length := by
  unfold Parser.skip_newlines; exact skip_newlines_go_current_le_length _ _ h

/-- Result type of a fueled parsing function: `none` when the fuel ran out,
otherwise the Rust `Result` value paired with the updated parser state. -/
abbrev PRes (α : Type) := Option (Except String (α × Parser))

/-- Sequence a fallible unfueled step into a fueled computation. -/
def bindE (x : Except String Parser) (g : Parser → PRes β) : PRes β :=
  match x with
  | .error e => some (.error e)
  | .ok p => g p

/-- Sequence an unfueled value-producing step into a fueled computation. -/
def bindX (x : Except String (α × Parser)) (g : α → Parser → PRes β) : PRes β :=
  match x with
  | .error e => some (.error e)
  | .ok (a, p) => g a p

/-- Sequence two fueled computations (`?` propagation of errors, and
out-of-fuel is absorbing). -/
def bindR (x : PRes α) (g : α → Parser → PRes β) : PRes β :=
  match x with
  | none => none
  | some (.error e) => some (.error e)
  | some (.ok (a, p)) => g a p

/-- `Parser::parse_primary`: a number, string or identifier consumed as a
single token; anything else is "Unexpected token in expression". -/
def parse_primary (p : Parser) : Except String (Expression × Parser) :=
  match p.current_token with
  | .Number n => .ok (.Number n, p.advance)
  | .String s => .ok (.String s, p.advance)
  | .Identifier name => .ok (.Identifier name, p.advance)
  | _ => .error ("Unexpected token in expression: " ++ p.current_token.fmt)

/-- `Parser::parse_comparison_operator`: consume a comparison operator token
and return its AST operator, or return `none` leaving the cursor alone. -/
def parse_comparison_operator (p : Parser) : Option BinaryOperator × Parser :=
  match p.current_token with
  | .IsGreaterThan => (some .GreaterThan, p.advance)
  | .IsLessThan => (some .LessThan, p.advance)
  | .IsGreaterThanOrEqual => (some .GreaterThanOrEqual, p.advance)
  | .IsLessThanOrEqual => (some .LessThanOrEqual, p.advance)
  | .IsEqual => (some .Equal, p.advance)
  | .IsNotEqual => (some .NotEqual, p.advance)
  | _ => (none, p)

/-- The `while matches!(.., Multiply | Divide)` folding loop of
`Parser::parse_term`. -/
def term_loop : Nat → Parser → Expression → PRes Expression
  | 0, _, _ => none
  | f + 1, p, left =>
    match p.current_token with
    | .Multiply =>
      bindX (parse_primary p.advance) fun right q =>
        term_loop f q (.BinaryOp left .Multiply right)
    | .Divide =>
      bindX (parse_primary p.advance) fun right q =>
        term_loop f q (.BinaryOp left .Divide right)
    | _ => some (.ok (left, p))

/-- `Parser::parse_term`: one primary, then the multiplicative folding
loop. -/
def parse_term : Nat → Parser → PRes Expression
  | 0, _ => none
  | f + 1, p => bindX (parse_primary p) fun left q => term_loop f q left

/-- The `while matches!(.., Plus | Minus)` folding loop of
`Parser::parse_arithmetic`. -/
def arith_loop : Nat → Parser → Expression → PRes Expression
  | 0, _, _ => none
  | f + 1, p, left =>
    match p.current_token with
    | .Plus =>
      bindR (parse_term f p.advance) fun right q =>
        arith_loop f q (.BinaryOp left .Add right)
    | .Minus =>
      bindR (parse_term f p.advance) fun right q =>
        arith_loop f q (.BinaryOp left .Subtract right)
    | _ => some (.ok (left, p))

/-- `Parser::parse_arithmetic`: one term, then the additive folding loop. -/
def parse_arithmetic : Nat → Parser → PRes Expression
  | 0, _ => none
  | f + 1, p => bindR (parse_term f p) fun left q => arith_loop f q left

/-- The `while let Some(op) = parse_comparison_operator()` folding loop of
`Parser::parse_comparison`. -/
def comparison_loop : Nat → Parser → Expression → PRes Expression
  | 0, _, _ => none
  | f + 1, p, left =>
    match parse_comparison_operator p with
    | (some op, q) =>
      bindR (parse_arithmetic f q) fun right r =>
        comparison_loop f r (.BinaryOp left op right)
    | (none, _) => some (.ok (left, p))

/-- `Parser::parse_comparison`: one arithmetic expression, then the
comparison folding loop. -/
def parse_comparison : Nat → Parser → PRes Expression
  | 0, _ => none
  | f + 1, p => bindR (parse_arithmetic f p) fun left q => comparison_loop f q left

/-- `Parser::parse_expression` is the comparison level. -/
def parse_expression : Nat → Parser → PRes Expression
  | 0, _ => none
  | f + 1, p => parse_comparison f p

/-- `Parser::parse_let_statement`: `let` <identifier> `be` <expression>. -/
def parse_let_statement : Nat → Parser → PRes Statement
  | 0, _ => none
  | f + 1, p =>
    bindE (p.expect Token.Let) fun p1 =>
      match p1.current_token with
      | .Identifier name =>
        bindE (p1.advance.expect Token.Be) fun p2 =>
          bindR (parse_expression f p2) fun value p3 =>
            some (.ok (.Let name value, p3))
      | _ => some (.error "Expected identifier after 'let'")

/-- `Parser::parse_show_statement`: `show` <expression>. -/
def parse_show_statement : Nat → Parser → PRes Statement
  | 0, _ => none
  | f + 1, p =>
    bindE (p.expect Token.Show) fun p1 =>
      bindR (parse_expression f p1) fun value p2 =>
        some (.ok (.Show value, p2))

/-- Iteration core of the parameter-collecting loop of
`Parser::parse_function_def`, structurally recursive on a step budget (see
`parse_params_spec`): consecutive identifier tokens are consumed and
collected in order, stopping at the first non-identifier. -/
def params_go : Nat → Parser → List String × Parser
  | 0, p => ([], p)
  | n + 1, p =>
    match p.current_token with
    | .Identifier param =>
      let r := params_go n p.advance
      (param :: r.1, r.2)
    | _ => ([], p)

/-- The parameter-collecting loop of `Parser::parse_function_def`. -/
def parse_params (p : Parser) : List String × Parser :=
  params_go (p.tokens.length - p.current) p

/-- `parse_params` satisfies the Rust loop's unfolding equation: the step
budget `tokens.length - current` never runs out, because each consumed
identifier lies strictly inside the token vector. -/
theorem parse_params_spec (p : Parser) :
    parse_params p =
      match p.current_token with
      | .Identifier param =>
        ((param :: (parse_params p.advance).1), (parse_params p.advance).2)
      | _ => ([], p) := by
  have hadv : parse_params p.advance =
      params_go (p.tokens.length - p.advance.current) p.advance := by
    unfold parse_params; rw [Parser.advance_tokens]
  by_cases h : ∃ param, p.current_token = Token.Identifier param
  · obtain ⟨param, hc⟩ := h
    rw [hc, hadv]
    have hlt : p.current < p.tokens.length :=
      p.lt_of_current_token_ne_eof (by rw [hc]; exact fun hx => Token.noConfusion hx)
    have hrem : p.tokens.length - p.current = (p.tokens.length - p.advance.current) + 1 := by
      rw [p.advance_current_of_lt hlt]; omega
    show params_go (p.tokens.length - p.current) p = _
    rw [hrem]
    show (match p.current_token with
      | .Identifier param =>
        (param :: (params_go (p.tokens.length - p.advance.current) p.advance).1,
          (params_go (p.tokens.length - p.advance.current) p.advance).2)
      | _ => ([], p)) = _
    rw [hc]
  · have hgoal : (match p.current_token with
      | Token.Identifier param =>
        ((param :: (parse_params p.advance).1), (parse_params p.advance).2)
      | _ => ([], p)) = (([] : List String), p) := by
      cases hc : p.current_token <;> first
        | rfl
        | exact absurd ⟨_, hc⟩ h
    rw [hgoal]
    show params_go (p.tokens.length - p.current) p = _
    cases hn : p.tokens.length - p.current with
    | zero => rfl
    | succ m =>
      show (match p.current_token with
        | Token.Identifier param =>
          (param :: (params_go m p.advance).1, (params_go m p.advance).2)
        | _ => ([], p)) = _
      cases hc : p.current_token <;> first
        | rfl
        | exact absurd ⟨_, hc⟩ h

mutual

/-- `Parser::parse_statement`: dispatch on the lookahead token kind to one
of the statement parsers, falling back to a bare expression statement. -/
def parse_statement : Nat → Parser → PRes Statement
  | 0, _ => none
  | f + 1, p =>
    match p.current_token with
    | .Let => parse_let_statement f p
    | .Show => parse_show_statement f p
    | .When => parse_when_statement f p
    | .Define => parse_function_def f p
    | _ => bindR (parse_expression f p) fun e q => some (.ok (.Expression e, q))

/-- `Parser::parse_when_statement`: `when` <condition> `then`, newlines,
then-block, optional otherwise clause. -/
def parse_when_statement : Nat → Parser → PRes Statement
  | 0, _ => none
  | f + 1, p =>
    bindE (p.expect Token.When) fun p1 =>
      bindR (parse_expression f p1) fun condition p2 =>
        bindE (p2.expect Token.Then) fun p3 =>
          bindR (parse_then_block f p3.skip_newlines) fun then_block p4 =>
            bindR (parse_otherwise_block f p4) fun otherwise_block p5 =>
              some (.ok (.When condition then_block otherwise_block, p5))

/-- The then-branch block of `Parser::parse_when_statement`: if an `Indent`
is present, consume it, run the statement loop, and consume a `Dedent` if
one is present; with no `Indent` the block is empty and nothing is
consumed. -/
def parse_then_block : Nat → Parser → PRes (List Statement)
  | 0, _ => none
  | f + 1, p =>
    if p.current_token = Token.Indent then
      bindR (then_block_loop f p.advance []) fun stmts q =>
        if q.current_token = Token.Dedent then some (.ok (stmts, q.advance))
        else some (.ok (stmts, q))
    else some (.ok ([], p))

/-- The `while !matches!(.., Dedent | Otherwise | Eof)` statement loop of
the then-branch of `Parser::parse_when_statement`. -/
def then_block_loop : Nat → Parser → List Statement → PRes (List Statement)
  | 0, _, _ => none
  | f + 1, p, acc =>
    match p.current_token with
    | .Dedent => some (.ok (acc, p))
    | .Otherwise => some (.ok (acc, p))
    | .Eof => some (.ok (acc, p))
    | _ =>
      bindR (parse_statement f p) fun s q =>
        then_block_loop f q.skip_newlines (acc ++ [s])

/-- The otherwise clause of `Parser::parse_when_statement`: if the current
token is `Otherwise`, consume it, skip newlines, and read an optional
indented block (yielding `some` even when the block is empty); with no
`Otherwise` token the result is `none` and nothing is consumed. -/
def parse_otherwise_block : Nat → Parser → PRes (Option (List Statement))
  | 0, _ => none
  | f + 1, p =>
    if p.current_token = Token.Otherwise then
      let p1 := p.advance.skip_newlines
      if p1.current_token = Token.Indent then
        bindR (otherwise_block_loop f p1.advance []) fun stmts q =>
          if q.current_token = Token.Dedent then some (.ok (some stmts, q.advance))
          else some (.ok (some stmts, q))
      else some (.ok (some [], p1))
    else some (.ok (none, p))

/-- The `while !matches!(.., Dedent | Eof)` statement loop of the otherwise
branch of `Parser::parse_when_statement`. -/
def otherwise_block_loop : Nat → Parser → List Statement → PRes (List Statement)
  | 0, _, _ => none
  | f + 1, p, acc =>
    match p.current_token with
    | .Dedent => some (.ok (acc, p))
    | .Eof => some (.ok (acc, p))
    | _ =>
      bindR (parse_statement f p) fun s q =>
        otherwise_block_loop f q.skip_newlines (acc ++ [s])

/-- `Parser::parse_function_def`: `define` <name>, optional `with`
parameter list, newlines, optional indented body, optional trailing `end`
keyword. -/
def parse_function_def : Nat → Parser → PRes Statement
  | 0, _ => none
  | f + 1, p =>
    bindE (p.expect Token.Define) fun p1 =>
      match p1.current_token with
      | .Identifier name =>
        let p2 := p1.advance
        let pr := if p2.current_token = Token.With then parse_params p2.advance
                  else ([], p2)
        let p3 := pr.2.skip_newlines
        bindR (parse_def_body f p3) fun body q =>
          let q2 := if q.current_token = Token.End then q.advance else q
          some (.ok (.FunctionDef name pr.1 body, q2))
      | _ => some (.error "Expected function name after 'define'")

/-- The body block of `Parser::parse_function_def`: if an `Indent` is
present, consume it, run the statement loop, and consume a `Dedent` if one
is present; with no `Indent` the body is empty and nothing is consumed. -/
def parse_def_body : Nat → Parser → PRes (List Statement)
  | 0, _ => none
  | f + 1, p =>
    if p.current_token = Token.Indent then
      bindR (body_block_loop f p.advance []) fun stmts q =>
        if q.current_token = Token.Dedent then some (.ok (stmts, q.advance))
        else some (.ok (stmts, q))
    else some (.ok ([], p))

/-- The `while !matches!(.., End | Dedent | Eof)` statement loop of the
body of `Parser::parse_function_def`. -/
def body_block_loop : Nat → Parser → List Statement → PRes (List Statement)
  | 0, _, _ => none
  | f + 1, p, acc =>
    match p.current_token with
    | .End => some (.ok (acc, p))
    | .Dedent => some (.ok (acc, p))
    | .Eof => some (.ok (acc, p))
    | _ =>
      bindR (parse_statement f p) fun s q =>
        body_block_loop f q.skip_newlines (acc ++ [s])

/-- The top-level `while !matches!(.., Eof)` statement loop of
`Parser::parse`. -/
def program_loop : Nat → Parser → List Statement → PRes (List Statement)
  | 0, _, _ => none
  | f + 1, p, acc =>
    if p.current_token = Token.Eof then some (.ok (acc, p))
    else
      bindR (parse_statement f p) fun s q =>
        program_loop f q.skip_newlines (acc ++ [s])

end

/-- `Parser::parse`: skip leading newlines, collect statements until `Eof`,
and return the `Program`. -/
def parse : Nat → Parser → PRes Program
  | 0, _ => none
  | f + 1, p =>
    bindR (program_loop f p.skip_newlines []) fun stmts q =>
      some (.ok (Program.mk stmts, q))

/-- C1: multiplicative operators bind tighter than additive ones: for all
numeric payloads and each additive/multiplicative operator pair, the token
sequence <number> <add-op> <number> <mul-op> <number> parses to
`BinaryOp(Number a, addOp, BinaryOp(Number b, mulOp, Number c))`; in
particular `1 + 2 * 3` parses as `BinaryOp(1, Add, BinaryOp(2, Multiply, 3))`. -/
theorem precedence_multiplicative_over_additive :
    ∀ (f : Nat) (a b c : Int),
      parse_expression (f + 12) ⟨[.Number a, .Plus, .Number b, .Multiply, .Number c], 0⟩ =
        some (.ok (.BinaryOp (.Number a) .Add (.BinaryOp (.Number b) .Multiply (.Number c)),
          ⟨[.Number a, .Plus, .Number b, .Multiply, .Number c], 5⟩)) ∧
      parse_expression (f + 12) ⟨[.Number a, .Plus, .Number b, .Divide, .Number c], 0⟩ =
        some (.ok (.BinaryOp (.Number a) .Add (.BinaryOp (.Number b) .Divide (.Number c)),
          ⟨[.Number a, .Plus, .Number b, .Divide, .Number c], 5⟩)) ∧
      parse_expression (f + 12) ⟨[.Number a, .Minus, .Number b, .Multiply, .Number c], 0⟩ =
        some (.ok (.BinaryOp (.Number a) .Subtract (.BinaryOp (.Number b) .Multiply (.Number c)),
          ⟨[.Number a, .Minus, .Number b, .Multiply, .Number c], 5⟩)) ∧
      parse_expression (f + 12) ⟨[.Number a, .Minus, .Number b, .Divide, .Number c], 0⟩ =
        some (.ok (.BinaryOp (.Number a) .Subtract (.BinaryOp (.Number b) .Divide (.Number c)),
          ⟨[.Number a, .Minus, .Number b, .Divide, .Number c], 5⟩)) := by
  intro f a b c
  refine ⟨?_, ?_, ?_, ?_⟩ <;>
    simp [parse_expression, parse_comparison, parse_arithmetic, parse_term, term_loop,
      arith_loop, comparison_loop, parse_primary, parse_comparison_operator, bindX, bindR,
      Parser.advance, Parser.current_token]

/-- The multiplicative-level operator token of an AST operator (the token
`parse_term`'s folding loop consumes to produce that operator). -/
def mul_op_token : BinaryOperator → Token
  | .Multiply => .Multiply
  | .Divide => .Divide
  | _ => .Eof

/-- The additive-level operator token of an AST operator (the token
`parse_arithmetic`'s folding loop consumes to produce that operator). -/
def add_op_token : BinaryOperator → Token
  | .Add => .Plus
  | .Subtract => .Minus
  | _ => .Eof

/-- The comparison-level operator token of an AST operator (the token
`parse_comparison_operator` consumes to produce that operator). -/
def cmp_op_token : BinaryOperator → Token
  | .GreaterThan => .IsGreaterThan
  | .LessThan => .IsLessThan
  | .GreaterThanOrEqual => .IsGreaterThanOrEqual
  | .LessThanOrEqual => .IsLessThanOrEqual
  | .Equal => .IsEqual
  | .NotEqual => .IsNotEqual
  | _ => .Eof

/-- The token tail of a multiplicative chain: an operator token followed by
a number literal, for each chain link. -/
def mul_chain_tokens : List (BinaryOperator × Int) → List Token
  | [] => []
  | (o, b) :: rest => mul_op_token o :: Token.Number b :: mul_chain_tokens rest

/-- The token tail of an additive chain. -/
def add_chain_tokens : List (BinaryOperator × Int) → List Token
  | [] => []
  | (o, b) :: rest => add_op_token o :: Token.Number b :: add_chain_tokens rest

/-- The token tail of a comparison chain. -/
def cmp_chain_tokens : List (BinaryOperator × Int) → List Token
  | [] => []
  | (o, b) :: rest => cmp_op_token o :: Token.Number b :: cmp_chain_tokens rest

/-- The left-nested tree a left-associative fold builds from a first
operand and a chain of (operator, operand) links: each link wraps the
accumulated tree as the LEFT child, so no link ever nests to the right. -/
def left_fold_chain : Expression → List (BinaryOperator × Int) → Expression
  | left, [] => left
  | left, (o, b) :: rest => left_fold_chain (.BinaryOp left o (.Number b)) rest

theorem drop_cons_inv {p : Parser} {x : Token} {xs : List Token}
    (h : List.drop p.current p.tokens = x :: xs) :
    p.current < p.tokens.length ∧ p.current_token = x ∧
      List.drop (p.current + 1) p.tokens = xs := by
  have hlt : p.current < p.tokens.length := by
    by_contra hn
    rw [List.drop_eq_nil_of_le (Nat.le_of_not_lt hn)] at h
    exact List.noConfusion h
  have hd := List.drop_eq_getElem_cons hlt
  rw [h] at hd
  injection hd with h1 h2
  refine ⟨hlt, ?_, h2.symm⟩
  rw [p.current_token_of_lt hlt]
  exact h1.symm

/-- A cursor looking at an additive chain (possibly empty) does not see a
multiplicative operator token. -/
theorem add_chain_next_safe :
    ∀ (rest : List (BinaryOperator × Int)) (q : Parser),
      q.current ≤ q.tokens.length →
      List.drop q.current q.tokens = add_chain_tokens rest →
      (∀ x ∈ rest, x.1 = BinaryOperator.Add ∨ x.1 = BinaryOperator.Subtract) →
      q.current_token ≠ Token.Multiply ∧ q.current_token ≠ Token.Divide := by
  intro rest q hle hdrop hvalid
  cases rest with
  | nil =>
    have hlen := congrArg List.length hdrop
    rw [List.length_drop] at hlen
    simp only [add_chain_tokens, List.length_nil] at hlen
    rw [q.current_token_of_le (by omega)]
    exact ⟨fun h => Token.noConfusion h, fun h => Token.noConfusion h⟩
  | cons hd rest =>
    obtain ⟨o, b⟩ := hd
    simp only [add_chain_tokens] at hdrop
    obtain ⟨_, hcur, _⟩ := drop_cons_inv hdrop
    rcases hvalid (o, b) (List.mem_cons_self _ _) with ho | ho
    · have ho' : o = BinaryOperator.Add := ho
      subst ho'
      rw [show q.current_token = Token.Plus from hcur]
      exact ⟨fun h => Token.noConfusion h, fun h => Token.noConfusion h⟩
    · have ho' : o = BinaryOperator.Subtract := ho
      subst ho'
      rw [show q.current_token = Token.Minus from hcur]
      exact ⟨fun h => Token.noConfusion h, fun h => Token.noConfusion h⟩

/-- A cursor looking at a comparison chain (possibly empty) does not see a
multiplicative or additive operator token. -/
theorem cmp_chain_next_safe :
    ∀ (rest : List (BinaryOperator × Int)) (q : Parser),
      q.current ≤ q.tokens.length →
      List.drop q.current q.tokens = cmp_chain_tokens rest →
      (∀ x ∈ rest, x.1 = BinaryOperator.GreaterThan ∨ x.1 = BinaryOperator.LessThan ∨
        x.1 = BinaryOperator.GreaterThanOrEqual ∨ x.1 = BinaryOperator.LessThanOrEqual ∨
        x.1 = BinaryOperator.Equal ∨ x.1 = BinaryOperator.NotEqual) →
      q.current_token ≠ Token.Multiply ∧ q.current_token ≠ Token.Divide ∧
        q.current_token ≠ Token.Plus ∧ q.current_token ≠ Token.Minus := by
  intro rest q hle hdrop hvalid
  cases rest with
  | nil =>
    have hlen := congrArg List.length hdrop
    rw [List.length_drop] at hlen
    simp only [cmp_chain_tokens, List.length_nil] at hlen
    rw [q.current_token_of_le (by omega)]
    refine ⟨?_, ?_, ?_, ?_⟩ <;> exact fun h => Token.noConfusion h
  | cons hd rest =>
    obtain ⟨o, b⟩ := hd
    simp only [cmp_chain_tokens] at hdrop
    obtain ⟨_, hcur, _⟩ := drop_cons_inv hdrop
    rcases hvalid (o, b) (List.mem_cons_self _ _) with ho | ho | ho | ho | ho | ho
    · have ho' : o = BinaryOperator.GreaterThan := ho
      subst ho'
      rw [show q.current_token = Token.IsGreaterThan from hcur]
      refine ⟨?_, ?_, ?_, ?_⟩ <;> exact fun h => Token.noConfusion h
    · have ho' : o = BinaryOperator.LessThan := ho
      subst ho'
      rw [show q.current_token = Token.IsLessThan from hcur]
      refine ⟨?_, ?_, ?_, ?_⟩ <;> exact fun h => Token.noConfusion h
    · have ho' : o = BinaryOperator.GreaterThanOrEqual := ho
      subst ho'
      rw [show q.current_token = Token.IsGreaterThanOrEqual from hcur]
      refine ⟨?_, ?_, ?_, ?_⟩ <;> exact fun h => Token.noConfusion h
    · have ho' : o = BinaryOperator.LessThanOrEqual := ho
      subst ho'
      rw [show q.current_token = Token.IsLessThanOrEqual from hcur]
      refine ⟨?_, ?_, ?_, ?_⟩ <;> exact fun h => Token.noConfusion h
    · have ho' : o = BinaryOperator.Equal := ho
      subst ho'
      rw [show q.current_token = Token.IsEqual from hcur]
      refine ⟨?_, ?_, ?_, ?_⟩ <;> exact fun h => Token.noConfusion h
    · have ho' : o = BinaryOperator.NotEqual := ho
      subst ho'
      rw [show q.current_token = Token.IsNotEqual from hcur]
      refine ⟨?_, ?_, ?_, ?_⟩ <;> exact fun h => Token.noConfusion h

theorem parse_comparison_operator_of_cmp {p : Parser} {o : BinaryOperator}
    (hv : o = BinaryOperator.GreaterThan ∨ o = BinaryOperator.LessThan ∨
      o = BinaryOperator.GreaterThanOrEqual ∨ o = BinaryOperator.LessThanOrEqual ∨
      o = BinaryOperator.Equal ∨ o = BinaryOperator.NotEqual)
    (hc : p.current_token = cmp_op_token o) :
    parse_comparison_operator p = (some o, p.advance) := by
  rcases hv with rfl | rfl | rfl | rfl | rfl | rfl <;>
    simp only [parse_comparison_operator, hc, cmp_op_token]

/-- `parse_term` consumes a single number when no multiplicative operator
follows it. -/
theorem parse_term_single {p : Parser} {b : Int}
    (hb : p.current_token = Token.Number b)
    (h1 : p.advance.current_token ≠ Token.Multiply)
    (h2 : p.advance.current_token ≠ Token.Divide) :
    ∀ f, 2 ≤ f → parse_term f p = some (.ok (.Number b, p.advance)) := by
  intro f hf
  obtain ⟨g, rfl⟩ : ∃ g, f = g + 2 := ⟨f - 2, by omega⟩
  simp only [parse_term]
  have hprim : parse_primary p = .ok (.Number b, p.advance) := by
    unfold parse_primary; rw [hb]
  rw [hprim]
  simp only [bindX]
  simp only [term_loop]

/-- `parse_arithmetic` consumes a single number when no multiplicative or
additive operator follows it. -/
theorem parse_arithmetic_single {p : Parser} {b : Int}
    (hb : p.current_token = Token.Number b)
    (h1 : p.advance.current_token ≠ Token.Multiply)
    (h2 : p.advance.current_token ≠ Token.Divide)
    (h3 : p.advance.current_token ≠ Token.Plus)
    (h4 : p.advance.current_token ≠ Token.Minus) :
    ∀ f, 4 ≤ f → parse_arithmetic f p = some (.ok (.Number b, p.advance)) := by
  intro f hf
  obtain ⟨g, rfl⟩ : ∃ g, f = g + 1 := ⟨f - 1, by omega⟩
  simp only [parse_arithmetic]
  rw [parse_term_single hb h1 h2 g (by omega)]
  simp only [bindR]
  obtain ⟨g2, rfl⟩ : ∃ g2, g = g2 + 1 := ⟨g - 1, by omega⟩
  simp only [arith_loop]

theorem arith_loop_eof_exit {p : Parser} (hc : p.current_token = Token.Eof) :
    ∀ (f : Nat) (left : Expression), 1 ≤ f →
      arith_loop f p left = some (.ok (left, p)) := by
  intro f left hf
  obtain ⟨g, rfl⟩ : ∃ g, f = g + 1 := ⟨f - 1, by omega⟩
  simp only [arith_loop]
  rw [hc]

theorem comparison_loop_eof_exit {p : Parser} (hc : p.current_token = Token.Eof) :
    ∀ (f : Nat) (left : Expression), 1 ≤ f →
      comparison_loop f p left = some (.ok (left, p)) := by
  intro f left hf
  obtain ⟨g, rfl⟩ : ∃ g, f = g + 1 := ⟨f - 1, by omega⟩
  have hop : parse_comparison_operator p = (none, p) := by
    unfold parse_comparison_operator; rw [hc]
  simp only [comparison_loop]
  rw [hop]
/-- The multiplicative folding loop turns a chain of (operator, number)
links of arbitrary length into the left fold of its operands. -/
theorem term_loop_chain :
    ∀ (rest : List (BinaryOperator × Int)) (f : Nat) (p : Parser) (left : Expression),
      2 * rest.length + 1 ≤ f →
      p.current ≤ p.tokens.length →
      List.drop p.current p.tokens = mul_chain_tokens rest →
      (∀ x ∈ rest, x.1 = BinaryOperator.Multiply ∨ x.1 = BinaryOperator.Divide) →
      term_loop f p left =
        some (.ok (left_fold_chain left rest, ⟨p.tokens, p.tokens.length⟩)) := by
  intro rest
  induction rest with
  | nil =>
    intro f p left hf hle hdrop _
    obtain ⟨g, rfl⟩ : ∃ g, f = g + 1 := ⟨f - 1, by omega⟩
    have hlen := congrArg List.length hdrop
    rw [List.length_drop] at hlen
    simp only [mul_chain_tokens, List.length_nil] at hlen
    have hcur : p.current = p.tokens.length := by omega
    have hp : p = (⟨p.tokens, p.tokens.length⟩ : Parser) := by rw [← hcur]
    simp only [term_loop]
    rw [p.current_token_of_le (by omega), ← hp]
    rfl
  | cons hd rest ih =>
    obtain ⟨o, b⟩ := hd
    intro f p left hf hle hdrop hvalid
    obtain ⟨g, rfl⟩ : ∃ g, f = g + 1 := ⟨f - 1, by omega⟩
    simp only [mul_chain_tokens] at hdrop
    obtain ⟨hlt, hcur, hrest⟩ := drop_cons_inv hdrop
    have hdrop2 : List.drop p.advance.current p.advance.tokens =
        Token.Number b :: mul_chain_tokens rest := by
      rw [Parser.advance_tokens, p.advance_current_of_lt hlt]
      exact hrest
    obtain ⟨hlt2, hcur2, hrest2⟩ := drop_cons_inv hdrop2
    have hprim : parse_primary p.advance = .ok (.Number b, p.advance.advance) := by
      unfold parse_primary; rw [hcur2]
    have hdrop3 : List.drop p.advance.advance.current p.advance.advance.tokens =
        mul_chain_tokens rest := by
      rw [Parser.advance_tokens, Parser.advance_current_of_lt _ hlt2]
      exact hrest2
    have hle3 : p.advance.advance.current ≤ p.advance.advance.tokens.length := by
      rw [Parser.advance_tokens, Parser.advance_current_of_lt _ hlt2]
      omega
    have hvalid' : ∀ x ∈ rest, x.1 = BinaryOperator.Multiply ∨ x.1 = BinaryOperator.Divide :=
      fun x hx => hvalid x (List.mem_cons_of_mem _ hx)
    have hfg : 2 * rest.length + 1 ≤ g := by
      simp only [List.length_cons] at hf
      omega
    have ihres := ih g p.advance.advance (.BinaryOp left o (.Number b)) hfg hle3 hdrop3 hvalid'
    rw [Parser.advance_tokens, Parser.advance_tokens] at ihres
    simp only [term_loop]
    rcases hvalid (o, b) (List.mem_cons_self _ _) with ho | ho
    · have ho' : o = BinaryOperator.Multiply := ho
      subst ho'
      rw [show p.current_token = Token.Multiply from hcur]
      show bindX (parse_primary p.advance)
          (fun right q => term_loop g q (Expression.BinaryOp left BinaryOperator.Multiply right)) = _
      rw [hprim]
      simp only [bindX]
      exact ihres
    · have ho' : o = BinaryOperator.Divide := ho
      subst ho'
      rw [show p.current_token = Token.Divide from hcur]
      show bindX (parse_primary p.advance)
          (fun right q => term_loop g q (Expression.BinaryOp left BinaryOperator.Divide right)) = _
      rw [hprim]
      simp only [bindX]
      exact ihres

/-- The additive folding loop turns a chain of (operator, number) links of
arbitrary length into the left fold of its operands. -/
theorem arith_loop_chain :
    ∀ (rest : List (BinaryOperator × Int)) (f : Nat) (p : Parser) (left : Expression),
      4 * rest.length + 1 ≤ f →
      p.current ≤ p.tokens.length →
      List.drop p.current p.tokens = add_chain_tokens rest →
      (∀ x ∈ rest, x.1 = BinaryOperator.Add ∨ x.1 = BinaryOperator.Subtract) →
      arith_loop f p left =
        some (.ok (left_fold_chain left rest, ⟨p.tokens, p.tokens.length⟩)) := by
  intro rest
  induction rest with
  | nil =>
    intro f p left hf hle hdrop _
    obtain ⟨g, rfl⟩ : ∃ g, f = g + 1 := ⟨f - 1, by omega⟩
    have hlen := congrArg List.length hdrop
    rw [List.length_drop] at hlen
    simp only [add_chain_tokens, List.length_nil] at hlen
    have hcur : p.current = p.tokens.length := by omega
    have hp : p = (⟨p.tokens, p.tokens.length⟩ : Parser) := by rw [← hcur]
    simp only [arith_loop]
    rw [p.current_token_of_le (by omega), ← hp]
    rfl
  | cons hd rest ih =>
    obtain ⟨o, b⟩ := hd
    intro f p left hf hle hdrop hvalid
    obtain ⟨g, rfl⟩ : ∃ g, f = g + 1 := ⟨f - 1, by omega⟩
    simp only [add_chain_tokens] at hdrop
    obtain ⟨hlt, hcur, hrest⟩ := drop_cons_inv hdrop
    have hdrop2 : List.drop p.advance.current p.advance.tokens =
        Token.Number b :: add_chain_tokens rest := by
      rw [Parser.advance_tokens, p.advance_current_of_lt hlt]
      exact hrest
    obtain ⟨hlt2, hcur2, hrest2⟩ := drop_cons_inv hdrop2
    have hdrop3 : List.drop p.advance.advance.current p.advance.advance.tokens =
        add_chain_tokens rest := by
      rw [Parser.advance_tokens, Parser.advance_current_of_lt _ hlt2]
      exact hrest2
    have hle3 : p.advance.advance.current ≤ p.advance.advance.tokens.length := by
      rw [Parser.advance_tokens, Parser.advance_current_of_lt _ hlt2]
      omega
    have hvalid' : ∀ x ∈ rest, x.1 = BinaryOperator.Add ∨ x.1 = BinaryOperator.Subtract :=
      fun x hx => hvalid x (List.mem_cons_of_mem _ hx)
    have hnext := add_chain_next_safe rest p.advance.advance hle3 hdrop3 hvalid'
    have hsingle := parse_term_single hcur2 hnext.1 hnext.2 g
      (by simp only [List.length_cons] at hf; omega)
    have hfg : 4 * rest.length + 1 ≤ g := by
      simp only [List.length_cons] at hf
      omega
    have ihres := ih g p.advance.advance (.BinaryOp left o (.Number b)) hfg hle3 hdrop3 hvalid'
    rw [Parser.advance_tokens, Parser.advance_tokens] at ihres
    simp only [arith_loop]
    rcases hvalid (o, b) (List.mem_cons_self _ _) with ho | ho
    · have ho' : o = BinaryOperator.Add := ho
      subst ho'
      rw [show p.current_token = Token.Plus from hcur]
      show bindR (parse_term g p.advance)
          (fun right q => arith_loop g q (Expression.BinaryOp left BinaryOperator.Add right)) = _
      rw [hsingle]
      simp only [bindR]
      exact ihres
    · have ho' : o = BinaryOperator.Subtract := ho
      subst ho'
      rw [show p.current_token = Token.Minus from hcur]
      show bindR (parse_term g p.advance)
          (fun right q => arith_loop g q (Expression.BinaryOp left BinaryOperator.Subtract right)) = _
      rw [hsingle]
      simp only [bindR]
      exact ihres

/-- The comparison folding loop turns a chain of (operator, number) links
of arbitrary length into the left fold of its operands. -/
theorem comparison_loop_chain :
    ∀ (rest : List (BinaryOperator × Int)) (f : Nat) (p : Parser) (left : Expression),
      6 * rest.length + 1 ≤ f →
      p.current ≤ p.tokens.length →
      List.drop p.current p.tokens = cmp_chain_tokens rest →
      (∀ x ∈ rest, x.1 = BinaryOperator.GreaterThan ∨ x.1 = BinaryOperator.LessThan ∨
        x.1 = BinaryOperator.GreaterThanOrEqual ∨ x.1 = BinaryOperator.LessThanOrEqual ∨
        x.1 = BinaryOperator.Equal ∨ x.1 = BinaryOperator.NotEqual) →
      comparison_loop f p left =
        some (.ok (left_fold_chain left rest, ⟨p.tokens, p.tokens.length⟩)) := by
  intro rest
  induction rest with
  | nil =>
    intro f p left hf hle hdrop _
    obtain ⟨g, rfl⟩ : ∃ g, f = g + 1 := ⟨f - 1, by omega⟩
    have hlen := congrArg List.length hdrop
    rw [List.length_drop] at hlen
    simp only [cmp_chain_tokens, List.length_nil] at hlen
    have hcur : p.current = p.tokens.length := by omega
    have hp : p = (⟨p.tokens, p.tokens.length⟩ : Parser) := by rw [← hcur]
    have hop : parse_comparison_operator p = (none, p) := by
      unfold parse_comparison_operator
      rw [p.current_token_of_le (by omega)]
    simp only [comparison_loop]
    rw [hop, ← hp]
    rfl
  | cons hd rest ih =>
    obtain ⟨o, b⟩ := hd
    intro f p left hf hle hdrop hvalid
    obtain ⟨g, rfl⟩ : ∃ g, f = g + 1 := ⟨f - 1, by omega⟩
    simp only [cmp_chain_tokens] at hdrop
    obtain ⟨hlt, hcur, hrest⟩ := drop_cons_inv hdrop
    have ho := hvalid (o, b) (List.mem_cons_self _ _)
    have hop : parse_comparison_operator p = (some o, p.advance) :=
      parse_comparison_operator_of_cmp ho hcur
    have hdrop2 : List.drop p.advance.current p.advance.tokens =
        Token.Number b :: cmp_chain_tokens rest := by
      rw [Parser.advance_tokens, p.advance_current_of_lt hlt]
      exact hrest
    obtain ⟨hlt2, hcur2, hrest2⟩ := drop_cons_inv hdrop2
    have hdrop3 : List.drop p.advance.advance.current p.advance.advance.tokens =
        cmp_chain_tokens rest := by
      rw [Parser.advance_tokens, Parser.advance_current_of_lt _ hlt2]
      exact hrest2
    have hle3 : p.advance.advance.current ≤ p.advance.advance.tokens.length := by
      rw [Parser.advance_tokens, Parser.advance_current_of_lt _ hlt2]
      omega
    have hvalid' : ∀ x ∈ rest, x.1 = BinaryOperator.GreaterThan ∨
        x.1 = BinaryOperator.LessThan ∨ x.1 = BinaryOperator.GreaterThanOrEqual ∨
        x.1 = BinaryOperator.LessThanOrEqual ∨ x.1 = BinaryOperator.Equal ∨
        x.1 = BinaryOperator.NotEqual :=
      fun x hx => hvalid x (List.mem_cons_of_mem _ hx)
    have hnext := cmp_chain_next_safe rest p.advance.advance hle3 hdrop3 hvalid'
    have hsingle := parse_arithmetic_single hcur2 hnext.1 hnext.2.1 hnext.2.2.1 hnext.2.2.2 g
      (by simp only [List.length_cons] at hf; omega)
    have hfg : 6 * rest.length + 1 ≤ g := by
      simp only [List.length_cons] at hf
      omega
    have ihres := ih g p.advance.advance (.BinaryOp left o (.Number b)) hfg hle3 hdrop3 hvalid'
    rw [Parser.advance_tokens, Parser.advance_tokens] at ihres
    simp only [comparison_loop]
    rw [hop]
    show bindR (parse_arithmetic g p.advance)
        (fun right r => comparison_loop g r (Expression.BinaryOp left o right)) = _
    rw [hsingle]
    simp only [bindR]
    exact ihres

/-- C2: same-precedence chains of any length fold left-associatively and
never right-nest, at all three levels: for every first operand, every
chain of (operator, number) links drawn from one precedence level — any
mix of `*`/`/` at the multiplicative level, any mix of `+`/`-` at the
additive level, and any mix of the six comparison operators at the
comparison level — `parse_expression` returns exactly the left fold
`left_fold_chain`, whose every link nests the accumulated tree as the left
child; the three-operand families `a - b - c`, `a / b / c` and
`a < b < c` are restated explicitly. -/
theorem same_level_left_associative :
    (∀ (f : Nat) (a : Int) (rest : List (BinaryOperator × Int)),
      2 * rest.length + 8 ≤ f →
      (∀ x ∈ rest, x.1 = BinaryOperator.Multiply ∨ x.1 = BinaryOperator.Divide) →
      parse_expression f ⟨Token.Number a :: mul_chain_tokens rest, 0⟩ =
        some (.ok (left_fold_chain (.Number a) rest,
          ⟨Token.Number a :: mul_chain_tokens rest,
           (Token.Number a :: mul_chain_tokens rest).length⟩))) ∧
    (∀ (f : Nat) (a : Int) (rest : List (BinaryOperator × Int)),
      4 * rest.length + 8 ≤ f →
      (∀ x ∈ rest, x.1 = BinaryOperator.Add ∨ x.1 = BinaryOperator.Subtract) →
      parse_expression f ⟨Token.Number a :: add_chain_tokens rest, 0⟩ =
        some (.ok (left_fold_chain (.Number a) rest,
          ⟨Token.Number a :: add_chain_tokens rest,
           (Token.Number a :: add_chain_tokens rest).length⟩))) ∧
    (∀ (f : Nat) (a : Int) (rest : List (BinaryOperator × Int)),
      6 * rest.length + 8 ≤ f →
      (∀ x ∈ rest, x.1 = BinaryOperator.GreaterThan ∨ x.1 = BinaryOperator.LessThan ∨
        x.1 = BinaryOperator.GreaterThanOrEqual ∨ x.1 = BinaryOperator.LessThanOrEqual ∨
        x.1 = BinaryOperator.Equal ∨ x.1 = BinaryOperator.NotEqual) →
      parse_expression f ⟨Token.Number a :: cmp_chain_tokens rest, 0⟩ =
        some (.ok (left_fold_chain (.Number a) rest,
          ⟨Token.Number a :: cmp_chain_tokens rest,
           (Token.Number a :: cmp_chain_tokens rest).length⟩))) ∧
    (∀ (f : Nat) (a b c : Int),
      parse_expression (f + 12) ⟨[.Number a, .Minus, .Number b, .Minus, .Number c], 0⟩ =
        some (.ok (.BinaryOp (.BinaryOp (.Number a) .Subtract (.Number b)) .Subtract (.Number c),
          ⟨[.Number a, .Minus, .Number b, .Minus, .Number c], 5⟩)) ∧
      parse_expression (f + 12) ⟨[.Number a, .Divide, .Number b, .Divide, .Number c], 0⟩ =
        some (.ok (.BinaryOp (.BinaryOp (.Number a) .Divide (.Number b)) .Divide (.Number c),
          ⟨[.Number a, .Divide, .Number b, .Divide, .Number c], 5⟩)) ∧
      parse_expression (f + 12) ⟨[.Number a, .IsLessThan, .Number b, .IsLessThan, .Number c], 0⟩ =
        some (.ok (.BinaryOp (.BinaryOp (.Number a) .LessThan (.Number b)) .LessThan (.Number c),
          ⟨[.Number a, .IsLessThan, .Number b, .IsLessThan, .Number c], 5⟩))) := by
  refine ⟨?_, ?_, ?_, ?_⟩
  · intro f a rest hf hvalid
    obtain ⟨g, rfl⟩ : ∃ g, f = g + 4 := ⟨f - 4, by omega⟩
    have hadv : (⟨Token.Number a :: mul_chain_tokens rest, 0⟩ : Parser).advance =
        ⟨Token.Number a :: mul_chain_tokens rest, 1⟩ := by
      unfold Parser.advance
      rw [if_pos (by simp)]
    have hprim : parse_primary ⟨Token.Number a :: mul_chain_tokens rest, 0⟩ =
        .ok (.Number a, ⟨Token.Number a :: mul_chain_tokens rest, 1⟩) := by
      unfold parse_primary
      rw [show (⟨Token.Number a :: mul_chain_tokens rest, 0⟩ : Parser).current_token =
        Token.Number a from rfl, hadv]
    have hle1 : (⟨Token.Number a :: mul_chain_tokens rest, 1⟩ : Parser).current ≤
        (⟨Token.Number a :: mul_chain_tokens rest, 1⟩ : Parser).tokens.length := by
      show 1 ≤ (Token.Number a :: mul_chain_tokens rest).length
      rw [List.length_cons]
      omega
    have hterm : term_loop g ⟨Token.Number a :: mul_chain_tokens rest, 1⟩ (.Number a) =
        some (.ok (left_fold_chain (.Number a) rest,
          ⟨Token.Number a :: mul_chain_tokens rest,
           (Token.Number a :: mul_chain_tokens rest).length⟩)) :=
      term_loop_chain rest g _ _ (by omega) hle1 rfl hvalid
    have heof : (⟨Token.Number a :: mul_chain_tokens rest,
        (Token.Number a :: mul_chain_tokens rest).length⟩ : Parser).current_token =
          Token.Eof :=
      Parser.current_token_of_le _ (Nat.le_refl _)
    simp only [parse_expression, parse_comparison, parse_arithmetic, parse_term]
    rw [hprim]
    simp only [bindX]
    rw [hterm]
    simp only [bindR]
    rw [arith_loop_eof_exit heof (g + 1) (left_fold_chain (.Number a) rest) (by omega)]
    simp only [bindR]
    rw [comparison_loop_eof_exit heof (g + 2) (left_fold_chain (.Number a) rest) (by omega)]
  · intro f a rest hf hvalid
    obtain ⟨g, rfl⟩ : ∃ g, f = g + 3 := ⟨f - 3, by omega⟩
    have hadv : (⟨Token.Number a :: add_chain_tokens rest, 0⟩ : Parser).advance =
        ⟨Token.Number a :: add_chain_tokens rest, 1⟩ := by
      unfold Parser.advance
      rw [if_pos (by simp)]
    have hle1 : (⟨Token.Number a :: add_chain_tokens rest, 1⟩ : Parser).current ≤
        (⟨Token.Number a :: add_chain_tokens rest, 1⟩ : Parser).tokens.length := by
      show 1 ≤ (Token.Number a :: add_chain_tokens rest).length
      rw [List.length_cons]
      omega
    have hsafe := add_chain_next_safe rest
      ⟨Token.Number a :: add_chain_tokens rest, 1⟩ hle1 rfl hvalid
    have hb : (⟨Token.Number a :: add_chain_tokens rest, 0⟩ : Parser).current_token =
        Token.Number a := rfl
    have h1 : (⟨Token.Number a :: add_chain_tokens rest, 0⟩ :
        Parser).advance.current_token ≠ Token.Multiply := by rw [hadv]; exact hsafe.1
    have h2 : (⟨Token.Number a :: add_chain_tokens rest, 0⟩ :
        Parser).advance.current_token ≠ Token.Divide := by rw [hadv]; exact hsafe.2
    have hsingle := parse_term_single hb h1 h2 g (by omega)
    have harith : arith_loop g
        (⟨Token.Number a :: add_chain_tokens rest, 1⟩ : Parser) (.Number a) =
        some (.ok (left_fold_chain (.Number a) rest,
          ⟨Token.Number a :: add_chain_tokens rest,
           (Token.Number a :: add_chain_tokens rest).length⟩)) :=
      arith_loop_chain rest g ⟨Token.Number a :: add_chain_tokens rest, 1⟩ (.Number a)
        (by omega) hle1 rfl hvalid
    have heof : (⟨Token.Number a :: add_chain_tokens rest,
        (Token.Number a :: add_chain_tokens rest).length⟩ : Parser).current_token =
          Token.Eof :=
      Parser.current_token_of_le _ (Nat.le_refl _)
    simp only [parse_expression, parse_comparison, parse_arithmetic]
    rw [hsingle]
    simp only [bindR]
    rw [hadv, harith]
    simp only [bindR]
    rw [comparison_loop_eof_exit heof (g + 1) (left_fold_chain (.Number a) rest) (by omega)]
  · intro f a rest hf hvalid
    obtain ⟨g, rfl⟩ : ∃ g, f = g + 2 := ⟨f - 2, by omega⟩
    have hadv : (⟨Token.Number a :: cmp_chain_tokens rest, 0⟩ : Parser).advance =
        ⟨Token.Number a :: cmp_chain_tokens rest, 1⟩ := by
      unfold Parser.advance
      rw [if_pos (by simp)]
    have hle1 : (⟨Token.Number a :: cmp_chain_tokens rest, 1⟩ : Parser).current ≤
        (⟨Token.Number a :: cmp_chain_tokens rest, 1⟩ : Parser).tokens.length := by
      show 1 ≤ (Token.Number a :: cmp_chain_tokens rest).length
      rw [List.length_cons]
      omega
    have hsafe := cmp_chain_next_safe rest
      ⟨Token.Number a :: cmp_chain_tokens rest, 1⟩ hle1 rfl hvalid
    have hb : (⟨Token.Number a :: cmp_chain_tokens rest, 0⟩ : Parser).current_token =
        Token.Number a := rfl
    have h1 : (⟨Token.Number a :: cmp_chain_tokens rest, 0⟩ :
        Parser).advance.current_token ≠ Token.Multiply := by rw [hadv]; exact hsafe.1
    have h2 : (⟨Token.Number a :: cmp_chain_tokens rest, 0⟩ :
        Parser).advance.current_token ≠ Token.Divide := by rw [hadv]; exact hsafe.2.1
    have h3 : (⟨Token.Number a :: cmp_chain_tokens rest, 0⟩ :
        Parser).advance.current_token ≠ Token.Plus := by rw [hadv]; exact hsafe.2.2.1
    have h4 : (⟨Token.Number a :: cmp_chain_tokens rest, 0⟩ :
        Parser).advance.current_token ≠ Token.Minus := by rw [hadv]; exact hsafe.2.2.2
    have hsingle := parse_arithmetic_single hb h1 h2 h3 h4 g (by omega)
    have hcomp : comparison_loop g
        (⟨Token.Number a :: cmp_chain_tokens rest, 1⟩ : Parser) (.Number a) =
        some (.ok (left_fold_chain (.Number a) rest,
          ⟨Token.Number a :: cmp_chain_tokens rest,
           (Token.Number a :: cmp_chain_tokens rest).length⟩)) :=
      comparison_loop_chain rest g ⟨Token.Number a :: cmp_chain_tokens rest, 1⟩ (.Number a)
        (by omega) hle1 rfl hvalid
    simp only [parse_expression, parse_comparison]
    rw [hsingle]
    simp only [bindR]
    rw [hadv, hcomp]
  · intro f a b c
    refine ⟨?_, ?_, ?_⟩ <;>
      simp [parse_expression, parse_comparison, parse_arithmetic, parse_term, term_loop,
        arith_loop, comparison_loop, parse_primary, parse_comparison_operator, bindX, bindR,
        Parser.advance, Parser.current_token]

/-- Witness for C2 at concrete four-operand chains mixing operators within
each level. -/
theorem same_level_left_associative_witness :
    parse_expression 20 ⟨[Token.Number 1, Token.Multiply, Token.Number 2, Token.Divide,
        Token.Number 3, Token.Multiply, Token.Number 4], 0⟩ =
      some (.ok (.BinaryOp (.BinaryOp (.BinaryOp (.Number 1) .Multiply (.Number 2))
          .Divide (.Number 3)) .Multiply (.Number 4),
        ⟨[Token.Number 1, Token.Multiply, Token.Number 2, Token.Divide, Token.Number 3,
          Token.Multiply, Token.Number 4], 7⟩)) ∧
    parse_expression 20 ⟨[Token.Number 1, Token.Minus, Token.Number 2, Token.Plus,
        Token.Number 3, Token.Minus, Token.Number 4], 0⟩ =
      some (.ok (.BinaryOp (.BinaryOp (.BinaryOp (.Number 1) .Subtract (.Number 2))
          .Add (.Number 3)) .Subtract (.Number 4),
        ⟨[Token.Number 1, Token.Minus, Token.Number 2, Token.Plus, Token.Number 3,
          Token.Minus, Token.Number 4], 7⟩)) ∧
    parse_expression 30 ⟨[Token.Number 1, Token.IsLessThan, Token.Number 2,
        Token.IsGreaterThanOrEqual, Token.Number 3, Token.IsNotEqual, Token.Number 4], 0⟩ =
      some (.ok (.BinaryOp (.BinaryOp (.BinaryOp (.Number 1) .LessThan (.Number 2))
          .GreaterThanOrEqual (.Number 3)) .NotEqual (.Number 4),
        ⟨[Token.Number 1, Token.IsLessThan, Token.Number 2, Token.IsGreaterThanOrEqual,
          Token.Number 3, Token.IsNotEqual, Token.Number 4], 7⟩)) :=
  ⟨same_level_left_associative.1 20 1
      [(BinaryOperator.Multiply, 2), (BinaryOperator.Divide, 3), (BinaryOperator.Multiply, 4)]
      (by decide) (by decide),
   same_level_left_associative.2.1 20 1
      [(BinaryOperator.Subtract, 2), (BinaryOperator.Add, 3), (BinaryOperator.Subtract, 4)]
      (by decide) (by decide),
   same_level_left_associative.2.2.1 30 1
      [(BinaryOperator.LessThan, 2), (BinaryOperator.GreaterThanOrEqual, 3),
       (BinaryOperator.NotEqual, 4)]
      (by decide) (by decide)⟩

/-- C6: the cursor never indexes outside the token vector: `current_token`
is the entry at the cursor when in range and `Eof` at or past the end,
`advance` is the identity once the cursor has reached the end, and any
number of `advance` calls keeps the cursor within the vector's length. -/
theorem cursor_never_out_of_bounds :
    (∀ (p : Parser) (h : p.current < p.tokens.length),
        p.current_token = p.tokens.get ⟨p.current, h⟩) ∧
    (∀ p : Parser, p.tokens.length ≤ p.current → p.current_token = Token.Eof) ∧
    (∀ p : Parser, p.tokens.length ≤ p.current → p.advance = p) ∧
    (∀ (p : Parser) (n : Nat), p.current ≤ p.tokens.length →
        (Parser.advance^[n] p).current ≤ p.tokens.length) := by
  refine ⟨Parser.current_token_of_lt, Parser.current_token_of_le, Parser.advance_of_le, ?_⟩
  intro p n
  induction n generalizing p with
  | zero => intro h; simpa using h
  | succ n ih =>
    intro h
    rw [Function.iterate_succ_apply]
    have h2 : p.advance.current ≤ p.advance.tokens.length := by
      rw [Parser.advance_tokens]; exact p.advance_current_le_length h
    have h3 := ih p.advance h2
    rwa [Parser.advance_tokens] at h3

/-- Witness for C6 at concrete cursor states. -/
theorem cursor_never_out_of_bounds_witness :
    (⟨[Token.Newline], 0⟩ : Parser).current_token = Token.Newline ∧
    (⟨[Token.Newline], 5⟩ : Parser).advance = ⟨[Token.Newline], 5⟩ ∧
    (Parser.advance^[7] ⟨[Token.Newline], 0⟩).current ≤ 1 :=
  ⟨(cursor_never_out_of_bounds.1 ⟨[Token.Newline], 0⟩ (by decide)).trans rfl,
   cursor_never_out_of_bounds.2.2.1 ⟨[Token.Newline], 5⟩ (by decide),
   cursor_never_out_of_bounds.2.2.2 ⟨[Token.Newline], 0⟩ 7 (by decide)⟩

/-- C7: `expect` compares only the discriminant of the current token with
that of the expected token: on a tag match (in particular for identifier
tokens with different payloads) it advances and succeeds; on a mismatch it
returns an error naming the expected token and the token actually found,
and produces no advanced state. -/
theorem expect_tag_only_contract :
    ∀ (p : Parser) (expected : Token),
      (p.current_token.kind = expected.kind → p.expect expected = .ok p.advance) ∧
      (p.current_token.kind ≠ expected.kind →
        p.expect expected =
          .error ("Expected " ++ expected.fmt ++ ", found " ++ p.current_token.fmt)) ∧
      (∀ name payload, p.current_token = Token.Identifier name →
        p.expect (Token.Identifier payload) = .ok p.advance) := by
  intro p expected
  refine ⟨?_, ?_, ?_⟩
  · intro h; unfold Parser.expect; rw [if_pos h]
  · intro h; unfold Parser.expect; rw [if_neg h]
  · intro name payload h; unfold Parser.expect; rw [if_pos (by rw [h]; rfl)]

/-- Witness for C7: payload-insensitive success and a mismatch error. -/
theorem expect_tag_only_contract_witness :
    (⟨[Token.Identifier "x"], 0⟩ : Parser).expect (Token.Identifier "y") =
      .ok ⟨[Token.Identifier "x"], 1⟩ ∧
    (⟨[Token.Number 5], 0⟩ : Parser).expect Token.Be =
      .error "Expected Be, found Number(5)" :=
  ⟨((expect_tag_only_contract ⟨[Token.Identifier "x"], 0⟩
      (Token.Identifier "y")).2.2 "x" "y" rfl).trans rfl,
   ((expect_tag_only_contract ⟨[Token.Number 5], 0⟩ Token.Be).2.1 (by decide)).trans rfl⟩

/-- C8: `let be 5` fails with the missing-identifier error (both through
`parse_let_statement` and through the statement dispatcher), and in general
a `let` statement fails when the token after `let` is not an identifier, or
with the `expect`-style error when the `be` token is missing. -/
theorem let_missing_identifier_fails :
    (∀ f : Nat, parse_let_statement (f + 1)
        ⟨[Token.Let, Token.Be, Token.Number 5, Token.Eof], 0⟩ =
        some (.error "Expected identifier after 'let'")) ∧
    (∀ f : Nat, parse_statement (f + 2)
        ⟨[Token.Let, Token.Be, Token.Number 5, Token.Eof], 0⟩ =
        some (.error "Expected identifier after 'let'")) ∧
    (∀ (f : Nat) (p : Parser), p.current_token.kind = Token.Let.kind →
      (∀ name, p.advance.current_token ≠ Token.Identifier name) →
      parse_let_statement (f + 1) p = some (.error "Expected identifier after 'let'")) ∧
    (∀ (f : Nat) (p : Parser) (name : String), p.current_token.kind = Token.Let.kind →
      p.advance.current_token = Token.Identifier name →
      p.advance.advance.current_token.kind ≠ Token.Be.kind →
      parse_let_statement (f + 1) p =
        some (.error ("Expected " ++ Token.Be.fmt ++ ", found "
          ++ p.advance.advance.current_token.fmt))) := by
  refine ⟨?_, ?_, ?_, ?_⟩
  · intro f
    simp [parse_let_statement, Parser.expect, Parser.advance, Parser.current_token,
      Token.kind, bindE]
  · intro f
    simp [parse_statement, parse_let_statement, Parser.expect, Parser.advance,
      Parser.current_token, Token.kind, bindE]
  · intro f p h1 h2
    simp only [parse_let_statement]
    unfold Parser.expect
    rw [if_pos h1]
    simp only [bindE]
  · intro f p name h1 h2 h3
    simp only [parse_let_statement]
    unfold Parser.expect
    rw [if_pos h1]
    simp only [bindE]
    rw [h2]
    show bindE (p.advance.advance.expect Token.Be) _ = _
    unfold Parser.expect
    rw [if_neg h3]
    simp only [bindE]

/-- Witness for C8's universally quantified conjuncts at concrete states. -/
theorem let_missing_identifier_fails_witness :
    parse_let_statement 1 ⟨[Token.Let, Token.Number 7, Token.Eof], 0⟩ =
      some (.error "Expected identifier after 'let'") ∧
    parse_let_statement 1 ⟨[Token.Let, Token.Identifier "x", Token.Number 7], 0⟩ =
      some (.error ("Expected " ++ Token.Be.fmt ++ ", found "
        ++ (⟨[Token.Let, Token.Identifier "x", Token.Number 7], 0⟩
            : Parser).advance.advance.current_token.fmt)) :=
  ⟨let_missing_identifier_fails.2.2.1 0 ⟨[Token.Let, Token.Number 7, Token.Eof], 0⟩
      (by decide) (by intro name h; rw [show (⟨[Token.Let, Token.Number 7, Token.Eof], 0⟩
        : Parser).advance.current_token = Token.Number 7 from rfl] at h; exact
        Token.noConfusion h),
   let_missing_identifier_fails.2.2.2 0 ⟨[Token.Let, Token.Identifier "x", Token.Number 7], 0⟩
      "x" (by decide) rfl (by decide)⟩

/-- C10: `define` <name> `with` followed immediately by a non-identifier
token is accepted silently with an empty parameter list: the parameter loop
consumes nothing when the current token is not an identifier, and the whole
statement parses to a `FunctionDef` with `parameters = []`. -/
theorem define_with_zero_params_accepted :
    (∀ p : Parser, (∀ name, p.current_token ≠ Token.Identifier name) →
        parse_params p = ([], p)) ∧
    (∀ (f : Nat) (name : String),
        parse_statement (f + 3) ⟨[.Define, .Identifier name, .With, .Newline, .Eof], 0⟩ =
          some (.ok (.FunctionDef name [] [],
            ⟨[.Define, .Identifier name, .With, .Newline, .Eof], 4⟩))) := by
  constructor
  · intro p h
    rw [parse_params_spec]
    cases hc : p.current_token <;>
      first
        | rfl
        | exact absurd hc (h _)
  · intro f name
    simp [parse_statement, parse_function_def, parse_def_body, body_block_loop,
      parse_params, params_go, Parser.skip_newlines, skip_newlines_go, Parser.expect,
      Parser.advance, Parser.current_token, Token.kind, bindE, bindR]

/-- Witness for C10's parameter-loop conjunct at a concrete state. -/
theorem define_with_zero_params_accepted_witness :
    parse_params ⟨[Token.Newline], 0⟩ = ([], ⟨[Token.Newline], 0⟩) :=
  define_with_zero_params_accepted.1 ⟨[Token.Newline], 0⟩
    (by intro name h; rw [show (⟨[Token.Newline], 0⟩ : Parser).current_token
      = Token.Newline from rfl] at h; exact Token.noConfusion h)

/-- C3: the `otherwise` outcomes of a `when` statement are distinguishable:
with no `Otherwise` token after the then-block the clause is `none` and
nothing is consumed; with an `Otherwise` token not followed (after
newlines) by an `Indent`, the clause is `some []`; `none` and `some []`
differ; and both outcomes are exhibited end to end through the statement
parser. -/
theorem when_otherwise_none_vs_some_empty :
    (∀ (f : Nat) (q : Parser), q.current_token ≠ Token.Otherwise →
        parse_otherwise_block (f + 1) q = some (.ok (none, q))) ∧
    (∀ (f : Nat) (q : Parser), q.current_token = Token.Otherwise →
        (q.advance.skip_newlines).current_token ≠ Token.Indent →
        parse_otherwise_block (f + 1) q = some (.ok (some [], q.advance.skip_newlines))) ∧
    ((none : Option (List Statement)) ≠ some []) ∧
    (∀ f : Nat, parse_statement (f + 9) ⟨[.When, .Number 1, .Then, .Newline, .Eof], 0⟩ =
        some (.ok (.When (.Number 1) [] none,
          ⟨[.When, .Number 1, .Then, .Newline, .Eof], 4⟩))) ∧
    (∀ f : Nat, parse_statement (f + 9)
        ⟨[.When, .Number 1, .Then, .Newline, .Otherwise, .Newline, .Eof], 0⟩ =
        some (.ok (.When (.Number 1) [] (some []),
          ⟨[.When, .Number 1, .Then, .Newline, .Otherwise, .Newline, .Eof], 6⟩))) := by
  refine ⟨?_, ?_, ?_, ?_, ?_⟩
  · intro f q h
    simp only [parse_otherwise_block]
    rw [if_neg h]
  · intro f q h1 h2
    simp only [parse_otherwise_block]
    rw [if_pos h1]
    rw [if_neg h2]
  · simp
  · intro f
    simp [parse_statement, parse_when_statement, parse_then_block, then_block_loop,
      parse_otherwise_block, otherwise_block_loop, parse_expression, parse_comparison,
      parse_arithmetic, parse_term, term_loop, arith_loop, comparison_loop, parse_primary,
      parse_comparison_operator, Parser.skip_newlines, skip_newlines_go, Parser.expect,
      Parser.advance, Parser.current_token, Token.kind, bindE, bindX, bindR]
  · intro f
    simp [parse_statement, parse_when_statement, parse_then_block, then_block_loop,
      parse_otherwise_block, otherwise_block_loop, parse_expression, parse_comparison,
      parse_arithmetic, parse_term, term_loop, arith_loop, comparison_loop, parse_primary,
      parse_comparison_operator, Parser.skip_newlines, skip_newlines_go, Parser.expect,
      Parser.advance, Parser.current_token, Token.kind, bindE, bindX, bindR]

/-- Witness for C3's hypothesis-bearing conjuncts at concrete states. -/
theorem when_otherwise_none_vs_some_empty_witness :
    parse_otherwise_block 1 ⟨[Token.Eof], 0⟩ = some (.ok (none, ⟨[Token.Eof], 0⟩)) ∧
    parse_otherwise_block 1 ⟨[Token.Otherwise, Token.Eof], 0⟩ =
      some (.ok (some [], (⟨[Token.Otherwise, Token.Eof], 0⟩
        : Parser).advance.skip_newlines)) :=
  ⟨when_otherwise_none_vs_some_empty.1 0 ⟨[Token.Eof], 0⟩ (by decide),
   when_otherwise_none_vs_some_empty.2.1 0 ⟨[Token.Otherwise, Token.Eof], 0⟩
     (by decide) (by decide)⟩

/-- C4: a then-block never swallows a following `otherwise` clause: the
then-block statement loop stops, consuming nothing, at the first
`Otherwise` token; and end to end, with a nested `when` as the last
then-block statement and no dedent before `otherwise`, the statements after
the `otherwise` token end up in an `otherwise_block`, never in a
`then_block`. -/
theorem then_block_stops_at_otherwise :
    (∀ (f : Nat) (q : Parser) (acc : List Statement), q.current_token = Token.Otherwise →
        then_block_loop (f + 1) q acc = some (.ok (acc, q))) ∧
    (∀ f : Nat, parse_statement (f + 16)
        ⟨[.When, .Number 1, .Then, .Newline, .Indent, .When, .Number 2, .Then, .Newline,
          .Otherwise, .Newline, .Indent, .Show, .Number 3, .Newline, .Dedent, .Eof], 0⟩ =
        some (.ok (.When (.Number 1)
            [.When (.Number 2) [] (some [.Show (.Number 3)])] none,
          ⟨[.When, .Number 1, .Then, .Newline, .Indent, .When, .Number 2, .Then, .Newline,
            .Otherwise, .Newline, .Indent, .Show, .Number 3, .Newline, .Dedent, .Eof],
            16⟩))) := by
  constructor
  · intro f q acc h
    simp only [then_block_loop]
    rw [h]
  · intro f
    simp [parse_statement, parse_when_statement, parse_then_block, then_block_loop,
      parse_otherwise_block, otherwise_block_loop, parse_show_statement, parse_expression,
      parse_comparison, parse_arithmetic, parse_term, term_loop, arith_loop,
      comparison_loop, parse_primary, parse_comparison_operator, Parser.skip_newlines,
      skip_newlines_go, Parser.expect, Parser.advance, Parser.current_token, Token.kind,
      bindE, bindX, bindR]

/-- Witness for C4's loop conjunct at a concrete state. -/
theorem then_block_stops_at_otherwise_witness :
    then_block_loop 1 ⟨[Token.Otherwise], 0⟩ [] =
      some (.ok ([], ⟨[Token.Otherwise], 0⟩)) :=
  then_block_stops_at_otherwise.1 0 ⟨[Token.Otherwise], 0⟩ [] (by decide)

/-- C5: the `end` keyword after a function body is optional and
inconsequential: for all names, parameters and shown value, the
`define .. with .. <indented body> Dedent End` token sequence and the same
sequence without `End` both parse successfully to the identical
`FunctionDef` AST value (only the final cursor position differs, by the one
consumed `End` token). -/
theorem function_def_end_keyword_optional :
    ∀ (f : Nat) (nm pa pb : String) (v : Int),
      parse_statement (f + 12)
        ⟨[.Define, .Identifier nm, .With, .Identifier pa, .Identifier pb, .Newline,
          .Indent, .Show, .Number v, .Newline, .Dedent, .End, .Eof], 0⟩ =
        some (.ok (.FunctionDef nm [pa, pb] [.Show (.Number v)],
          ⟨[.Define, .Identifier nm, .With, .Identifier pa, .Identifier pb, .Newline,
            .Indent, .Show, .Number v, .Newline, .Dedent, .End, .Eof], 12⟩)) ∧
      parse_statement (f + 12)
        ⟨[.Define, .Identifier nm, .With, .Identifier pa, .Identifier pb, .Newline,
          .Indent, .Show, .Number v, .Newline, .Dedent, .Eof], 0⟩ =
        some (.ok (.FunctionDef nm [pa, pb] [.Show (.Number v)],
          ⟨[.Define, .Identifier nm, .With, .Identifier pa, .Identifier pb, .Newline,
            .Indent, .Show, .Number v, .Newline, .Dedent, .Eof], 11⟩)) := by
  intro f nm pa pb v
  constructor <;>
    simp [parse_statement, parse_function_def, parse_def_body, body_block_loop,
      parse_show_statement, parse_params, params_go, parse_expression, parse_comparison,
      parse_arithmetic, parse_term, term_loop, arith_loop, comparison_loop, parse_primary,
      parse_comparison_operator, Parser.skip_newlines, skip_newlines_go, Parser.expect,
      Parser.advance, Parser.current_token, Token.kind, bindE, bindX, bindR]

/-- Strict cursor progress: same token vector, strictly larger cursor, and
the cursor stays within the vector's length. -/
def ProgressS (p q : Parser) : Prop :=
  q.tokens = p.tokens ∧ p.current < q.current ∧ q.current ≤ p.tokens.length

/-- Weak cursor progress: same token vector, non-decreasing cursor, and the
cursor stays within the vector's length when it started there. -/
def ProgressW (p q : Parser) : Prop :=
  q.tokens = p.tokens ∧ p.current ≤ q.current ∧
    (p.current ≤ p.tokens.length → q.current ≤ p.tokens.length)

theorem ProgressS.toW {p q : Parser} (h : ProgressS p q) : ProgressW p q :=
  ⟨h.1, Nat.le_of_lt h.2.1, fun _ => h.2.2⟩

theorem ProgressW.refl {p : Parser} : ProgressW p p :=
  ⟨rfl, Nat.le_refl _, fun h => h⟩

theorem ProgressW.trans {p q r : Parser} (h1 : ProgressW p q) (h2 : ProgressW q r) :
    ProgressW p r := by
  obtain ⟨ha, hb, hc⟩ := h1
  obtain ⟨hd, he, hf⟩ := h2
  refine ⟨hd.trans ha, hb.trans he, fun hg => ?_⟩
  have := hf (by rw [ha]; exact hc hg)
  rwa [ha] at this

theorem ProgressS.trans_W {p q r : Parser} (h1 : ProgressS p q) (h2 : ProgressW q r) :
    ProgressS p r := by
  obtain ⟨ha, hb, hc⟩ := h1
  obtain ⟨hd, he, hf⟩ := h2
  refine ⟨hd.trans ha, Nat.lt_of_lt_of_le hb he, ?_⟩
  have := hf (by rw [ha]; exact hc)
  rwa [ha] at this

theorem ProgressW.trans_S {p q r : Parser} (h1 : ProgressW p q) (h2 : ProgressS q r) :
    ProgressS p r := by
  obtain ⟨ha, hb, hc⟩ := h1
  obtain ⟨hd, he, hf⟩ := h2
  refine ⟨hd.trans ha, Nat.lt_of_le_of_lt hb he, ?_⟩
  rwa [ha] at hf

theorem Parser.advance_progressW (p : Parser) : ProgressW p p.advance :=
  ⟨p.advance_tokens, p.advance_current_ge, p.advance_current_le_length⟩

theorem Parser.advance_progressS (p : Parser) (h : p.current_token ≠ Token.Eof) :
    ProgressS p p.advance := by
  have hlt := p.lt_of_current_token_ne_eof h
  refine ⟨p.advance_tokens, ?_, ?_⟩ <;> rw [p.advance_current_of_lt hlt] <;> omega

theorem Parser.skip_newlines_progressW (p : Parser) : ProgressW p p.skip_newlines :=
  ⟨p.skip_newlines_tokens, p.skip_newlines_current_ge, p.skip_newlines_current_le_length⟩

theorem Parser.expect_ok_inv {p q : Parser} {t : Token} (h : p.expect t = .ok q) :
    q = p.advance ∧ p.current_token.kind = t.kind := by
  unfold Parser.expect at h
  split at h
  · exact ⟨(Except.ok.inj h).symm, by assumption⟩
  · exact Except.noConfusion h

theorem Parser.expect_progressS {p q : Parser} {t : Token}
    (ht : t.kind ≠ Token.Eof.kind) (h : p.expect t = .ok q) : ProgressS p q := by
  obtain ⟨hq, hk⟩ := p.expect_ok_inv h
  subst hq
  refine p.advance_progressS fun he => ht ?_
  rw [he] at hk
  exact hk.symm

theorem bindE_eq_some_ok {x : Except String Parser} {g : Parser → PRes β}
    {b : β} {r : Parser} (h : bindE x g = some (.ok (b, r))) :
    ∃ p1, x = .ok p1 ∧ g p1 = some (.ok (b, r)) := by
  cases x with
  | error e => simp [bindE] at h
  | ok p1 => exact ⟨p1, rfl, h⟩

theorem bindX_eq_some_ok {x : Except String (α × Parser)} {g : α → Parser → PRes β}
    {b : β} {r : Parser} (h : bindX x g = some (.ok (b, r))) :
    ∃ a q, x = .ok (a, q) ∧ g a q = some (.ok (b, r)) := by
  cases x with
  | error e => simp [bindX] at h
  | ok pr => exact ⟨pr.1, pr.2, rfl, h⟩

theorem bindR_eq_some_ok {x : PRes α} {g : α → Parser → PRes β}
    {b : β} {r : Parser} (h : bindR x g = some (.ok (b, r))) :
    ∃ a q, x = some (.ok (a, q)) ∧ g a q = some (.ok (b, r)) := by
  cases x with
  | none => exact Option.noConfusion h
  | some ex =>
    cases ex with
    | error e => simp [bindR] at h
    | ok pr => exact ⟨pr.1, pr.2, rfl, h⟩

theorem parse_primary_progress {p : Parser} {e : Expression} {q : Parser}
    (h : parse_primary p = .ok (e, q)) : ProgressS p q := by
  unfold parse_primary at h
  cases hc : p.current_token <;> rw [hc] at h <;> simp at h
  case Number n =>
    obtain ⟨he, hq⟩ := h
    subst hq
    exact p.advance_progressS (by rw [hc]; exact fun hx => Token.noConfusion hx)
  case String s =>
    obtain ⟨he, hq⟩ := h
    subst hq
    exact p.advance_progressS (by rw [hc]; exact fun hx => Token.noConfusion hx)
  case Identifier name =>
    obtain ⟨he, hq⟩ := h
    subst hq
    exact p.advance_progressS (by rw [hc]; exact fun hx => Token.noConfusion hx)

theorem parse_comparison_operator_some {p q : Parser} {op : BinaryOperator}
    (h : parse_comparison_operator p = (some op, q)) : ProgressS p q := by
  unfold parse_comparison_operator at h
  cases hc : p.current_token <;> rw [hc] at h <;> simp at h <;>
    (obtain ⟨ho, hq⟩ := h
     subst hq
     exact p.advance_progressS (by rw [hc]; exact fun hx => Token.noConfusion hx))

theorem term_loop_progress :
    ∀ (f : Nat) {p : Parser} {left e : Expression} {q : Parser},
      term_loop f p left = some (.ok (e, q)) → ProgressW p q := by
  intro f
  induction f with
  | zero => intro p left e q h; exact Option.noConfusion h
  | succ f ih =>
    intro p left e q h
    simp only [term_loop] at h
    cases hc : p.current_token <;> rw [hc] at h <;> dsimp only at h
    case Multiply =>
      obtain ⟨right, q1, hp, h⟩ := bindX_eq_some_ok h
      exact ((p.advance_progressS (by rw [hc]; exact fun hx => Token.noConfusion hx)).trans_W
        ((parse_primary_progress hp).toW.trans (ih h))).toW
    case Divide =>
      obtain ⟨right, q1, hp, h⟩ := bindX_eq_some_ok h
      exact ((p.advance_progressS (by rw [hc]; exact fun hx => Token.noConfusion hx)).trans_W
        ((parse_primary_progress hp).toW.trans (ih h))).toW
    all_goals
      simp only [Option.some.injEq, Except.ok.injEq, Prod.mk.injEq] at h
      obtain ⟨he, hq⟩ := h
      subst hq
      exact ProgressW.refl

theorem parse_term_progress :
    ∀ (f : Nat) {p : Parser} {e : Expression} {q : Parser},
      parse_term f p = some (.ok (e, q)) → ProgressS p q := by
  intro f p e q h
  cases f with
  | zero => exact Option.noConfusion h
  | succ f =>
    simp only [parse_term] at h
    obtain ⟨left, q1, hp, h⟩ := bindX_eq_some_ok h
    exact (parse_primary_progress hp).trans_W (term_loop_progress f h)

theorem arith_loop_progress :
    ∀ (f : Nat) {p : Parser} {left e : Expression} {q : Parser},
      arith_loop f p left = some (.ok (e, q)) → ProgressW p q := by
  intro f
  induction f with
  | zero => intro p left e q h; exact Option.noConfusion h
  | succ f ih =>
    intro p left e q h
    simp only [arith_loop] at h
    cases hc : p.current_token <;> rw [hc] at h <;> dsimp only at h
    case Plus =>
      obtain ⟨right, q1, hp, h⟩ := bindR_eq_some_ok h
      exact ((p.advance_progressS (by rw [hc]; exact fun hx => Token.noConfusion hx)).trans_W
        ((parse_term_progress f hp).toW.trans (ih h))).toW
    case Minus =>
      obtain ⟨right, q1, hp, h⟩ := bindR_eq_some_ok h
      exact ((p.advance_progressS (by rw [hc]; exact fun hx => Token.noConfusion hx)).trans_W
        ((parse_term_progress f hp).toW.trans (ih h))).toW
    all_goals
      simp only [Option.some.injEq, Except.ok.injEq, Prod.mk.injEq] at h
      obtain ⟨he, hq⟩ := h
      subst hq
      exact ProgressW.refl

theorem parse_arithmetic_progress :
    ∀ (f : Nat) {p : Parser} {e : Expression} {q : Parser},
      parse_arithmetic f p = some (.ok (e, q)) → ProgressS p q := by
  intro f p e q h
  cases f with
  | zero => exact Option.noConfusion h
  | succ f =>
    simp only [parse_arithmetic] at h
    obtain ⟨left, q1, hp, h⟩ := bindR_eq_some_ok h
    exact (parse_term_progress f hp).trans_W (arith_loop_progress f h)

theorem comparison_loop_progress :
    ∀ (f : Nat) {p : Parser} {left e : Expression} {q : Parser},
      comparison_loop f p left = some (.ok (e, q)) → ProgressW p q := by
  intro f
  induction f with
  | zero => intro p left e q h; exact Option.noConfusion h
  | succ f ih =>
    intro p left e q h
    simp only [comparison_loop] at h
    cases hop : parse_comparison_operator p with
    | mk fst snd =>
      rw [hop] at h
      cases fst with
      | none =>
        dsimp only at h
        simp only [Option.some.injEq, Except.ok.injEq, Prod.mk.injEq] at h
        obtain ⟨he, hq⟩ := h
        subst hq
        exact ProgressW.refl
      | some op =>
        dsimp only at h
        obtain ⟨right, q1, ha, h⟩ := bindR_eq_some_ok h
        exact ((parse_comparison_operator_some hop).trans_W
          ((parse_arithmetic_progress f ha).toW.trans (ih h))).toW

theorem parse_comparison_progress :
    ∀ (f : Nat) {p : Parser} {e : Expression} {q : Parser},
      parse_comparison f p = some (.ok (e, q)) → ProgressS p q := by
  intro f p e q h
  cases f with
  | zero => exact Option.noConfusion h
  | succ f =>
    simp only [parse_comparison] at h
    obtain ⟨left, q1, hp, h⟩ := bindR_eq_some_ok h
    exact (parse_arithmetic_progress f hp).trans_W (comparison_loop_progress f h)

theorem parse_expression_progress :
    ∀ (f : Nat) {p : Parser} {e : Expression} {q : Parser},
      parse_expression f p = some (.ok (e, q)) → ProgressS p q := by
  intro f p e q h
  cases f with
  | zero => exact Option.noConfusion h
  | succ f =>
    simp only [parse_expression] at h
    exact parse_comparison_progress f h

theorem parse_let_statement_progress :
    ∀ (f : Nat) {p : Parser} {s : Statement} {q : Parser},
      parse_let_statement f p = some (.ok (s, q)) → ProgressS p q := by
  intro f p s q h
  cases f with
  | zero => exact Option.noConfusion h
  | succ f =>
    simp only [parse_let_statement] at h
    obtain ⟨p1, he, h⟩ := bindE_eq_some_ok h
    have hS1 : ProgressS p p1 := Parser.expect_progressS (by decide) he
    cases hc : p1.current_token <;> rw [hc] at h <;> dsimp only at h
    case Identifier name =>
      obtain ⟨p2, hbe, h⟩ := bindE_eq_some_ok h
      obtain ⟨v, p3, hex, h⟩ := bindR_eq_some_ok h
      simp only [Option.some.injEq, Except.ok.injEq, Prod.mk.injEq] at h
      obtain ⟨hs, hq⟩ := h
      subst hq
      have w : ProgressW p1 p3 :=
        ((p1.advance_progressS (by rw [hc]; exact fun hx => Token.noConfusion hx)).toW).trans
          (((Parser.expect_progressS (by decide) hbe).toW).trans
            (parse_expression_progress f hex).toW)
      exact hS1.trans_W w
    all_goals simp at h

theorem parse_show_statement_progress :
    ∀ (f : Nat) {p : Parser} {s : Statement} {q : Parser},
      parse_show_statement f p = some (.ok (s, q)) → ProgressS p q := by
  intro f p s q h
  cases f with
  | zero => exact Option.noConfusion h
  | succ f =>
    simp only [parse_show_statement] at h
    obtain ⟨p1, he, h⟩ := bindE_eq_some_ok h
    obtain ⟨v, p2, hex, h⟩ := bindR_eq_some_ok h
    simp only [Option.some.injEq, Except.ok.injEq, Prod.mk.injEq] at h
    obtain ⟨hs, hq⟩ := h
    subst hq
    exact (Parser.expect_progressS (by decide) he).trans_W
      (parse_expression_progress f hex).toW

theorem params_go_progress : ∀ (n : Nat) (p : Parser), ProgressW p (params_go n p).2 := by
  intro n
  induction n with
  | zero => intro p; exact ProgressW.refl
  | succ n ih =>
    intro p
    by_cases h : ∃ name, p.current_token = Token.Identifier name
    · obtain ⟨name, hc⟩ := h
      have heq : params_go (n + 1) p =
          (name :: (params_go n p.advance).1, (params_go n p.advance).2) := by
        show (match p.current_token with
          | Token.Identifier param =>
            (param :: (params_go n p.advance).1, (params_go n p.advance).2)
          | _ => ([], p)) = _
        rw [hc]
      rw [heq]
      exact (p.advance_progressW).trans (ih p.advance)
    · have heq : params_go (n + 1) p = ([], p) := by
        show (match p.current_token with
          | Token.Identifier param =>
            (param :: (params_go n p.advance).1, (params_go n p.advance).2)
          | _ => ([], p)) = _
        cases hc : p.current_token <;> first | rfl | exact absurd ⟨_, hc⟩ h
      rw [heq]
      exact ProgressW.refl

theorem parse_params_progress (p : Parser) : ProgressW p (parse_params p).2 :=
  params_go_progress _ p

/-- Every successful run of a statement-layer parsing function preserves
the token vector, moves the cursor forward (strictly for statement-shaped
results), and keeps it within the vector. -/
theorem statement_progress_all : ∀ f : Nat,
    (∀ {p s q}, parse_statement f p = some (.ok (s, q)) → ProgressS p q) ∧
    (∀ {p s q}, parse_when_statement f p = some (.ok (s, q)) → ProgressS p q) ∧
    (∀ {p l q}, parse_then_block f p = some (.ok (l, q)) → ProgressW p q) ∧
    (∀ {p acc l q}, then_block_loop f p acc = some (.ok (l, q)) → ProgressW p q) ∧
    (∀ {p o q}, parse_otherwise_block f p = some (.ok (o, q)) → ProgressW p q) ∧
    (∀ {p acc l q}, otherwise_block_loop f p acc = some (.ok (l, q)) → ProgressW p q) ∧
    (∀ {p s q}, parse_function_def f p = some (.ok (s, q)) → ProgressS p q) ∧
    (∀ {p l q}, parse_def_body f p = some (.ok (l, q)) → ProgressW p q) ∧
    (∀ {p acc l q}, body_block_loop f p acc = some (.ok (l, q)) → ProgressW p q) ∧
    (∀ {p acc l q}, program_loop f p acc = some (.ok (l, q)) → ProgressW p q) := by
  intro f
  induction f with
  | zero =>
    exact ⟨fun h => Option.noConfusion h, fun h => Option.noConfusion h,
      fun h => Option.noConfusion h, fun h => Option.noConfusion h,
      fun h => Option.noConfusion h, fun h => Option.noConfusion h,
      fun h => Option.noConfusion h, fun h => Option.noConfusion h,
      fun h => Option.noConfusion h, fun h => Option.noConfusion h⟩
  | succ f ih =>
    obtain ⟨ihS, ihW, ihTB, ihTL, ihOB, ihOL, ihFD, ihDB, ihBL, ihPL⟩ := ih
    refine ⟨?_, ?_, ?_, ?_, ?_, ?_, ?_, ?_, ?_, ?_⟩
    -- parse_statement
    · intro p s q h
      simp only [parse_statement] at h
      cases hc : p.current_token <;> rw [hc] at h <;> dsimp only at h
      case Let => exact parse_let_statement_progress f h
      case Show => exact parse_show_statement_progress f h
      case When => exact ihW h
      case Define => exact ihFD h
      all_goals (
        obtain ⟨e, q1, hex, h⟩ := bindR_eq_some_ok h
        simp only [Option.some.injEq, Except.ok.injEq, Prod.mk.injEq] at h
        obtain ⟨hs, hq⟩ := h
        subst hq
        exact parse_expression_progress f hex)
    -- parse_when_statement
    · intro p s q h
      simp only [parse_when_statement] at h
      obtain ⟨p1, he, h⟩ := bindE_eq_some_ok h
      obtain ⟨cond, p2, hex, h⟩ := bindR_eq_some_ok h
      obtain ⟨p3, hth, h⟩ := bindE_eq_some_ok h
      obtain ⟨tb, p4, htb, h⟩ := bindR_eq_some_ok h
      obtain ⟨ob, p5, hob, h⟩ := bindR_eq_some_ok h
      simp only [Option.some.injEq, Except.ok.injEq, Prod.mk.injEq] at h
      obtain ⟨hs, hq⟩ := h
      subst hq
      exact (Parser.expect_progressS (by decide) he).trans_W
        ((parse_expression_progress f hex).toW.trans
          ((Parser.expect_progressS (by decide) hth).toW.trans
            ((Parser.skip_newlines_progressW p3).trans
              ((ihTB htb).trans (ihOB hob)))))
    -- parse_then_block
    · intro p l q h
      simp only [parse_then_block] at h
      split at h
      · rename_i hcond
        obtain ⟨stmts, q1, hl, h⟩ := bindR_eq_some_ok h
        have hadv : ProgressS p p.advance :=
          p.advance_progressS (by rw [hcond]; exact fun hx => Token.noConfusion hx)
        split at h <;>
          (simp only [Option.some.injEq, Except.ok.injEq, Prod.mk.injEq] at h
           obtain ⟨hl2, hq⟩ := h
           subst hq)
        · exact (hadv.trans_W ((ihTL hl).trans q1.advance_progressW)).toW
        · exact (hadv.trans_W (ihTL hl)).toW
      · simp only [Option.some.injEq, Except.ok.injEq, Prod.mk.injEq] at h
        obtain ⟨hl2, hq⟩ := h
        subst hq
        exact ProgressW.refl
    -- then_block_loop
    · intro p acc l q h
      simp only [then_block_loop] at h
      cases hc : p.current_token <;> rw [hc] at h <;> dsimp only at h
      all_goals first
        | (simp only [Option.some.injEq, Except.ok.injEq, Prod.mk.injEq] at h
           obtain ⟨hl2, hq⟩ := h
           subst hq
           exact ProgressW.refl)
        | (obtain ⟨s, q1, hs, h⟩ := bindR_eq_some_ok h
           exact (ihS hs).toW.trans ((Parser.skip_newlines_progressW q1).trans (ihTL h)))
    -- parse_otherwise_block
    · intro p o q h
      simp only [parse_otherwise_block] at h
      split at h
      · rename_i hcond
        have hstart : ProgressW p (p.advance.skip_newlines) :=
          ((p.advance_progressS (by rw [hcond]; exact fun hx => Token.noConfusion hx)).toW).trans
            (Parser.skip_newlines_progressW _)
        split at h
        · rename_i hindent
          obtain ⟨stmts, q1, hl, h⟩ := bindR_eq_some_ok h
          have hind : ProgressS p.advance.skip_newlines p.advance.skip_newlines.advance :=
            (p.advance.skip_newlines).advance_progressS
              (by rw [hindent]; exact fun hx => Token.noConfusion hx)
          split at h <;>
            (simp only [Option.some.injEq, Except.ok.injEq, Prod.mk.injEq] at h
             obtain ⟨hl2, hq⟩ := h
             subst hq)
          · exact hstart.trans (hind.toW.trans ((ihOL hl).trans q1.advance_progressW))
          · exact hstart.trans (hind.toW.trans (ihOL hl))
        · simp only [Option.some.injEq, Except.ok.injEq, Prod.mk.injEq] at h
          obtain ⟨hl2, hq⟩ := h
          subst hq
          exact hstart
      · simp only [Option.some.injEq, Except.ok.injEq, Prod.mk.injEq] at h
        obtain ⟨hl2, hq⟩ := h
        subst hq
        exact ProgressW.refl
    -- otherwise_block_loop
    · intro p acc l q h
      simp only [otherwise_block_loop] at h
      cases hc : p.current_token <;> rw [hc] at h <;> dsimp only at h
      all_goals first
        | (simp only [Option.some.injEq, Except.ok.injEq, Prod.mk.injEq] at h
           obtain ⟨hl2, hq⟩ := h
           subst hq
           exact ProgressW.refl)
        | (obtain ⟨s, q1, hs, h⟩ := bindR_eq_some_ok h
           exact (ihS hs).toW.trans ((Parser.skip_newlines_progressW q1).trans (ihOL h)))
    -- parse_function_def
    · intro p s q h
      simp only [parse_function_def] at h
      obtain ⟨p1, he, h⟩ := bindE_eq_some_ok h
      have hS1 : ProgressS p p1 := Parser.expect_progressS (by decide) he
      cases hc : p1.current_token <;> rw [hc] at h <;> dsimp only at h
      case Identifier name =>
        obtain ⟨body, q1, hdb, h⟩ := bindR_eq_some_ok h
        simp only [Option.some.injEq, Except.ok.injEq, Prod.mk.injEq] at h
        obtain ⟨hs, hq⟩ := h
        subst hq
        have hname : ProgressS p1 p1.advance :=
          p1.advance_progressS (by rw [hc]; exact fun hx => Token.noConfusion hx)
        have hparams : ProgressW p1.advance
            (if p1.advance.current_token = Token.With then parse_params p1.advance.advance
             else ([], p1.advance)).2 := by
          split
          · exact (p1.advance.advance_progressW).trans (parse_params_progress _)
          · exact ProgressW.refl
        have hbody : ProgressW p1.advance q1 :=
          hparams.trans ((Parser.skip_newlines_progressW _).trans (ihDB hdb))
        have hend : ProgressW q1 (if q1.current_token = Token.End then q1.advance else q1) := by
          split
          · exact q1.advance_progressW
          · exact ProgressW.refl
        exact hS1.trans_W (hname.toW.trans (hbody.trans hend))
      all_goals simp at h
    -- parse_def_body
    · intro p l q h
      simp only [parse_def_body] at h
      split at h
      · rename_i hcond
        obtain ⟨stmts, q1, hl, h⟩ := bindR_eq_some_ok h
        have hadv : ProgressS p p.advance :=
          p.advance_progressS (by rw [hcond]; exact fun hx => Token.noConfusion hx)
        split at h <;>
          (simp only [Option.some.injEq, Except.ok.injEq, Prod.mk.injEq] at h
           obtain ⟨hl2, hq⟩ := h
           subst hq)
        · exact (hadv.trans_W ((ihBL hl).trans q1.advance_progressW)).toW
        · exact (hadv.trans_W (ihBL hl)).toW
      · simp only [Option.some.injEq, Except.ok.injEq, Prod.mk.injEq] at h
        obtain ⟨hl2, hq⟩ := h
        subst hq
        exact ProgressW.refl
    -- body_block_loop
    · intro p acc l q h
      simp only [body_block_loop] at h
      cases hc : p.current_token <;> rw [hc] at h <;> dsimp only at h
      all_goals first
        | (simp only [Option.some.injEq, Except.ok.injEq, Prod.mk.injEq] at h
           obtain ⟨hl2, hq⟩ := h
           subst hq
           exact ProgressW.refl)
        | (obtain ⟨s, q1, hs, h⟩ := bindR_eq_some_ok h
           exact (ihS hs).toW.trans ((Parser.skip_newlines_progressW q1).trans (ihBL h)))
    -- program_loop
    · intro p acc l q h
      simp only [program_loop] at h
      split at h
      · simp only [Option.some.injEq, Except.ok.injEq, Prod.mk.injEq] at h
        obtain ⟨hl2, hq⟩ := h
        subst hq
        exact ProgressW.refl
      · obtain ⟨s, q1, hs, h⟩ := bindR_eq_some_ok h
        exact (ihS hs).toW.trans ((Parser.skip_newlines_progressW q1).trans (ihPL h))

theorem bindE_ne_none {x : Except String Parser} {g : Parser → PRes β}
    (hg : ∀ p1, x = .ok p1 → g p1 ≠ none) : bindE x g ≠ none := by
  cases x with
  | error e => intro h; simp [bindE] at h
  | ok p1 => exact hg p1 rfl

theorem bindX_ne_none {x : Except String (α × Parser)} {g : α → Parser → PRes β}
    (hg : ∀ a q, x = .ok (a, q) → g a q ≠ none) : bindX x g ≠ none := by
  cases x with
  | error e => intro h; simp [bindX] at h
  | ok pr =>
    obtain ⟨a, q⟩ := pr
    exact hg a q rfl

theorem bindR_ne_none {x : PRes α} {g : α → Parser → PRes β} (hx : x ≠ none)
    (hg : ∀ a q, x = some (.ok (a, q)) → g a q ≠ none) : bindR x g ≠ none := by
  cases x with
  | none => exact absurd rfl hx
  | some ex =>
    cases ex with
    | error e => intro h; simp [bindR] at h
    | ok pr =>
      obtain ⟨a, q⟩ := pr
      exact hg a q rfl

theorem term_loop_suff :
    ∀ (f : Nat) (p : Parser) (left : Expression), p.current ≤ p.tokens.length →
      p.tokens.length - p.current + 1 ≤ f → term_loop f p left ≠ none := by
  intro f
  induction f with
  | zero => intro p left h1 h2; omega
  | succ f ih =>
    intro p left h1 h2
    simp only [term_loop]
    cases hc : p.current_token <;> try simp
    case Multiply =>
      apply bindX_ne_none
      intro right q1 hp
      have hlt : p.current < p.tokens.length :=
        p.lt_of_current_token_ne_eof (by rw [hc]; exact fun hx => Token.noConfusion hx)
      have hadv := p.advance_current_of_lt hlt
      obtain ⟨ht, hq1, hle⟩ := parse_primary_progress hp
      rw [Parser.advance_tokens] at ht hle
      apply ih
      · rw [ht]; exact hle
      · rw [ht]; omega
    case Divide =>
      apply bindX_ne_none
      intro right q1 hp
      have hlt : p.current < p.tokens.length :=
        p.lt_of_current_token_ne_eof (by rw [hc]; exact fun hx => Token.noConfusion hx)
      have hadv := p.advance_current_of_lt hlt
      obtain ⟨ht, hq1, hle⟩ := parse_primary_progress hp
      rw [Parser.advance_tokens] at ht hle
      apply ih
      · rw [ht]; exact hle
      · rw [ht]; omega

theorem parse_term_suff :
    ∀ (f : Nat) (p : Parser), p.current ≤ p.tokens.length →
      p.tokens.length - p.current + 2 ≤ f → parse_term f p ≠ none := by
  intro f p h1 h2
  cases f with
  | zero => omega
  | succ f =>
    simp only [parse_term]
    apply bindX_ne_none
    intro left q1 hp
    obtain ⟨ht, hq1, hle⟩ := parse_primary_progress hp
    exact term_loop_suff f q1 left (by rw [ht]; exact hle) (by rw [ht]; omega)

theorem arith_loop_suff :
    ∀ (f : Nat) (p : Parser) (left : Expression), p.current ≤ p.tokens.length →
      p.tokens.length - p.current + 3 ≤ f → arith_loop f p left ≠ none := by
  intro f
  induction f with
  | zero => intro p left h1 h2; omega
  | succ f ih =>
    intro p left h1 h2
    simp only [arith_loop]
    cases hc : p.current_token <;> try simp
    case Plus =>
      have hlt : p.current < p.tokens.length :=
        p.lt_of_current_token_ne_eof (by rw [hc]; exact fun hx => Token.noConfusion hx)
      have hadv := p.advance_current_of_lt hlt
      apply bindR_ne_none
      · apply parse_term_suff f p.advance
        · rw [Parser.advance_tokens]; omega
        · rw [Parser.advance_tokens]; omega
      · intro right q1 hp
        obtain ⟨ht, hq1, hle⟩ := parse_term_progress f hp
        rw [Parser.advance_tokens] at ht hle
        rw [hadv] at hq1
        apply ih
        · rw [ht]; exact hle
        · rw [ht]; omega
    case Minus =>
      have hlt : p.current < p.tokens.length :=
        p.lt_of_current_token_ne_eof (by rw [hc]; exact fun hx => Token.noConfusion hx)
      have hadv := p.advance_current_of_lt hlt
      apply bindR_ne_none
      · apply parse_term_suff f p.advance
        · rw [Parser.advance_tokens]; omega
        · rw [Parser.advance_tokens]; omega
      · intro right q1 hp
        obtain ⟨ht, hq1, hle⟩ := parse_term_progress f hp
        rw [Parser.advance_tokens] at ht hle
        rw [hadv] at hq1
        apply ih
        · rw [ht]; exact hle
        · rw [ht]; omega

theorem parse_arithmetic_suff :
    ∀ (f : Nat) (p : Parser), p.current ≤ p.tokens.length →
      p.tokens.length - p.current + 4 ≤ f → parse_arithmetic f p ≠ none := by
  intro f p h1 h2
  cases f with
  | zero => omega
  | succ f =>
    simp only [parse_arithmetic]
    apply bindR_ne_none
    · exact parse_term_suff f p h1 (by omega)
    · intro left q1 hp
      obtain ⟨ht, hq1, hle⟩ := parse_term_progress f hp
      exact arith_loop_suff f q1 left (by rw [ht]; exact hle) (by rw [ht]; omega)

theorem comparison_loop_suff :
    ∀ (f : Nat) (p : Parser) (left : Expression), p.current ≤ p.tokens.length →
      p.tokens.length - p.current + 5 ≤ f → comparison_loop f p left ≠ none := by
  intro f
  induction f with
  | zero => intro p left h1 h2; omega
  | succ f ih =>
    intro p left h1 h2
    simp only [comparison_loop]
    cases hop : parse_comparison_operator p with
    | mk fst snd =>
      cases fst with
      | none => simp
      | some op =>
        dsimp only
        obtain ⟨ht0, hlt0, hle0⟩ := parse_comparison_operator_some hop
        apply bindR_ne_none
        · apply parse_arithmetic_suff f snd
          · rw [ht0]; exact hle0
          · rw [ht0]; omega
        · intro right q1 ha
          obtain ⟨ht, hq1, hle⟩ := parse_arithmetic_progress f ha
          rw [ht0] at ht hle
          apply ih
          · rw [ht]; exact hle
          · rw [ht]; omega

theorem parse_comparison_suff :
    ∀ (f : Nat) (p : Parser), p.current ≤ p.tokens.length →
      p.tokens.length - p.current + 6 ≤ f → parse_comparison f p ≠ none := by
  intro f p h1 h2
  cases f with
  | zero => omega
  | succ f =>
    simp only [parse_comparison]
    apply bindR_ne_none
    · exact parse_arithmetic_suff f p h1 (by omega)
    · intro left q1 hp
      obtain ⟨ht, hq1, hle⟩ := parse_arithmetic_progress f hp
      exact comparison_loop_suff f q1 left (by rw [ht]; exact hle) (by rw [ht]; omega)

theorem parse_expression_suff :
    ∀ (f : Nat) (p : Parser), p.current ≤ p.tokens.length →
      p.tokens.length - p.current + 7 ≤ f → parse_expression f p ≠ none := by
  intro f p h1 h2
  cases f with
  | zero => omega
  | succ f =>
    simp only [parse_expression]
    exact parse_comparison_suff f p h1 (by omega)

theorem parse_let_statement_suff :
    ∀ (f : Nat) (p : Parser), p.current ≤ p.tokens.length →
      p.tokens.length - p.current + 9 ≤ f → parse_let_statement f p ≠ none := by
  intro f p h1 h2
  cases f with
  | zero => omega
  | succ f =>
    simp only [parse_let_statement]
    apply bindE_ne_none
    intro p1 he
    obtain ⟨ht1, hlt1, hle1⟩ := Parser.expect_progressS (by decide) he
    cases hc : p1.current_token <;> try simp
    case Identifier name =>
      apply bindE_ne_none
      intro p2 hbe
      obtain ⟨ht2, hlt2, hle2⟩ :=
        (p1.advance_progressS (by rw [hc]; exact fun hx => Token.noConfusion hx)).trans_W
          (Parser.expect_progressS (by decide) hbe).toW
      rw [ht1] at ht2 hle2
      apply bindR_ne_none
      · apply parse_expression_suff f p2
        · rw [ht2]; exact hle2
        · rw [ht2]; omega
      · intro value p3 _
        simp

theorem parse_show_statement_suff :
    ∀ (f : Nat) (p : Parser), p.current ≤ p.tokens.length →
      p.tokens.length - p.current + 9 ≤ f → parse_show_statement f p ≠ none := by
  intro f p h1 h2
  cases f with
  | zero => omega
  | succ f =>
    simp only [parse_show_statement]
    apply bindE_ne_none
    intro p1 he
    obtain ⟨ht1, hlt1, hle1⟩ := Parser.expect_progressS (by decide) he
    apply bindR_ne_none
    · apply parse_expression_suff f p1
      · rw [ht1]; exact hle1
      · rw [ht1]; omega
    · intro value p2 _
      simp

/-- State facts after one loop iteration: a successful statement parse
followed by `skip_newlines` keeps the tokens, strictly advances the cursor
and stays within bounds. -/
theorem after_statement_skip (f : Nat) {p : Parser} {s : Statement} {q1 : Parser}
    (hs : parse_statement f p = some (.ok (s, q1))) (_h1 : p.current ≤ p.tokens.length) :
    q1.skip_newlines.tokens = p.tokens ∧ p.current < q1.skip_newlines.current ∧
      q1.skip_newlines.current ≤ p.tokens.length := by
  obtain ⟨ht, hlt, hle⟩ := (statement_progress_all f).1 hs
  obtain ⟨hst, hsc, hsl⟩ := Parser.skip_newlines_progressW q1
  refine ⟨by rw [hst, ht], Nat.lt_of_lt_of_le hlt hsc, ?_⟩
  have hb := hsl (by rw [ht]; exact hle)
  rwa [ht] at hb

/-- Fuel sufficiency: with fuel at least linear in the number of remaining
tokens, no statement-layer parsing function runs out of fuel. -/
theorem statement_suff_all : ∀ f : Nat,
    (∀ p : Parser, p.current ≤ p.tokens.length →
      4 * (p.tokens.length - p.current) + 15 ≤ f → parse_statement f p ≠ none) ∧
    (∀ p : Parser, p.current ≤ p.tokens.length →
      4 * (p.tokens.length - p.current) + 14 ≤ f → parse_when_statement f p ≠ none) ∧
    (∀ p : Parser, p.current ≤ p.tokens.length →
      4 * (p.tokens.length - p.current) + 14 ≤ f → parse_then_block f p ≠ none) ∧
    (∀ (p : Parser) (acc : List Statement), p.current ≤ p.tokens.length →
      4 * (p.tokens.length - p.current) + 16 ≤ f → then_block_loop f p acc ≠ none) ∧
    (∀ p : Parser, p.current ≤ p.tokens.length →
      4 * (p.tokens.length - p.current) + 14 ≤ f → parse_otherwise_block f p ≠ none) ∧
    (∀ (p : Parser) (acc : List Statement), p.current ≤ p.tokens.length →
      4 * (p.tokens.length - p.current) + 16 ≤ f → otherwise_block_loop f p acc ≠ none) ∧
    (∀ p : Parser, p.current ≤ p.tokens.length →
      4 * (p.tokens.length - p.current) + 14 ≤ f → parse_function_def f p ≠ none) ∧
    (∀ p : Parser, p.current ≤ p.tokens.length →
      4 * (p.tokens.length - p.current) + 14 ≤ f → parse_def_body f p ≠ none) ∧
    (∀ (p : Parser) (acc : List Statement), p.current ≤ p.tokens.length →
      4 * (p.tokens.length - p.current) + 16 ≤ f → body_block_loop f p acc ≠ none) ∧
    (∀ (p : Parser) (acc : List Statement), p.current ≤ p.tokens.length →
      4 * (p.tokens.length - p.current) + 16 ≤ f → program_loop f p acc ≠ none) := by
  intro f
  induction f with
  | zero => refine ⟨?_, ?_, ?_, ?_, ?_, ?_, ?_, ?_, ?_, ?_⟩ <;> intros <;> omega
  | succ f ih =>
    obtain ⟨ihS, ihW, ihTB, ihTL, ihOB, ihOL, ihFD, ihDB, ihBL, ihPL⟩ := ih
    refine ⟨?_, ?_, ?_, ?_, ?_, ?_, ?_, ?_, ?_, ?_⟩
    -- parse_statement
    · intro p h1 h2
      simp only [parse_statement]
      cases hc : p.current_token
      case Let => exact parse_let_statement_suff f p h1 (by omega)
      case Show => exact parse_show_statement_suff f p h1 (by omega)
      case When => exact ihW p h1 (by omega)
      case Define => exact ihFD p h1 (by omega)
      all_goals (
        apply bindR_ne_none
        · exact parse_expression_suff f p h1 (by omega)
        · intro e q1 _
          simp)
    -- parse_when_statement
    · intro p h1 h2
      simp only [parse_when_statement]
      apply bindE_ne_none
      intro p1 he
      obtain ⟨ht1, hlt1, hle1⟩ := Parser.expect_progressS (by decide) he
      apply bindR_ne_none
      · apply parse_expression_suff f p1
        · rw [ht1]; exact hle1
        · rw [ht1]; omega
      · intro cond p2 hex
        obtain ⟨ht2, hlt2, hle2⟩ := parse_expression_progress f hex
        rw [ht1] at ht2 hle2
        apply bindE_ne_none
        intro p3 hth
        obtain ⟨ht3, hlt3, hle3⟩ := Parser.expect_progressS (by decide) hth
        rw [ht2] at ht3 hle3
        obtain ⟨hst, hsc, hsl⟩ := Parser.skip_newlines_progressW p3
        have c2 : p3.skip_newlines.current ≤ p.tokens.length := by
          have hb := hsl (by rw [ht3]; exact hle3)
          rwa [ht3] at hb
        have e1 : p3.skip_newlines.tokens = p.tokens := by rw [hst, ht3]
        apply bindR_ne_none
        · apply ihTB
          · rw [e1]; exact c2
          · rw [e1]; omega
        · intro tb p4 htb
          obtain ⟨ht4, hc4, hb4⟩ := (statement_progress_all f).2.2.1 htb
          have e2 : p4.tokens = p.tokens := by rw [ht4, e1]
          have c3 : p4.current ≤ p.tokens.length := by
            have hb := hb4 (by rw [e1]; exact c2)
            rwa [e1] at hb
          apply bindR_ne_none
          · apply ihOB
            · rw [e2]; exact c3
            · rw [e2]; omega
          · intro ob p5 _
            simp
    -- parse_then_block
    · intro p h1 h2
      simp only [parse_then_block]
      split
      · rename_i hcond
        have hlt : p.current < p.tokens.length :=
          p.lt_of_current_token_ne_eof (by rw [hcond]; exact fun hx => Token.noConfusion hx)
        have hadv := p.advance_current_of_lt hlt
        apply bindR_ne_none
        · apply ihTL
          · rw [Parser.advance_tokens]; omega
          · rw [Parser.advance_tokens]; omega
        · intro stmts q1 _
          split <;> simp
      · simp
    -- then_block_loop
    · intro p acc h1 h2
      simp only [then_block_loop]
      cases hc : p.current_token <;> try simp
      all_goals (
        apply bindR_ne_none
        · exact ihS p h1 (by omega)
        · intro s q1 hs
          obtain ⟨e1, c1, c2⟩ := after_statement_skip f hs h1
          apply ihTL
          · rw [e1]; exact c2
          · rw [e1]; omega)
    -- parse_otherwise_block
    · intro p h1 h2
      simp only [parse_otherwise_block]
      split
      · rename_i hcond
        have hlt : p.current < p.tokens.length :=
          p.lt_of_current_token_ne_eof (by rw [hcond]; exact fun hx => Token.noConfusion hx)
        have hadv := p.advance_current_of_lt hlt
        obtain ⟨hst, hsc, hsl⟩ := Parser.skip_newlines_progressW p.advance
        have e1 : p.advance.skip_newlines.tokens = p.tokens := by
          rw [hst, Parser.advance_tokens]
        have c2 : p.advance.skip_newlines.current ≤ p.tokens.length := by
          have hb := hsl (by rw [Parser.advance_tokens]; omega)
          rwa [Parser.advance_tokens] at hb
        split
        · rename_i hindent
          have hlt2 : p.advance.skip_newlines.current <
              p.advance.skip_newlines.tokens.length :=
            Parser.lt_of_current_token_ne_eof _
              (by rw [hindent]; exact fun hx => Token.noConfusion hx)
          have hadv2 := (p.advance.skip_newlines).advance_current_of_lt hlt2
          rw [e1] at hlt2
          apply bindR_ne_none
          · apply ihOL
            · rw [Parser.advance_tokens, e1]; omega
            · rw [Parser.advance_tokens, e1]; omega
          · intro stmts q1 _
            split <;> simp
        · simp
      · simp
    -- otherwise_block_loop
    · intro p acc h1 h2
      simp only [otherwise_block_loop]
      cases hc : p.current_token <;> try simp
      all_goals (
        apply bindR_ne_none
        · exact ihS p h1 (by omega)
        · intro s q1 hs
          obtain ⟨e1, c1, c2⟩ := after_statement_skip f hs h1
          apply ihOL
          · rw [e1]; exact c2
          · rw [e1]; omega)
    -- parse_function_def
    · intro p h1 h2
      simp only [parse_function_def]
      apply bindE_ne_none
      intro p1 he
      cases hc : p1.current_token <;> try simp
      case Identifier name =>
        have hname : ProgressS p1 p1.advance :=
          p1.advance_progressS (by rw [hc]; exact fun hx => Token.noConfusion hx)
        have hparams : ProgressW p1.advance
            (if p1.advance.current_token = Token.With then parse_params p1.advance.advance
             else ([], p1.advance)).2 := by
          split
          · exact (p1.advance.advance_progressW).trans (parse_params_progress _)
          · exact ProgressW.refl
        have hS : ProgressS p
            ((if p1.advance.current_token = Token.With then parse_params p1.advance.advance
              else ([], p1.advance)).2.skip_newlines) :=
          (Parser.expect_progressS (by decide) he).trans_W
            (hname.toW.trans (hparams.trans (Parser.skip_newlines_progressW _)))
        obtain ⟨e1, c1, c2⟩ := hS
        apply bindR_ne_none
        · apply ihDB
          · rw [e1]; exact c2
          · rw [e1]; omega
        · intro body q1 _
          simp
    -- parse_def_body
    · intro p h1 h2
      simp only [parse_def_body]
      split
      · rename_i hcond
        have hlt : p.current < p.tokens.length :=
          p.lt_of_current_token_ne_eof (by rw [hcond]; exact fun hx => Token.noConfusion hx)
        have hadv := p.advance_current_of_lt hlt
        apply bindR_ne_none
        · apply ihBL
          · rw [Parser.advance_tokens]; omega
          · rw [Parser.advance_tokens]; omega
        · intro stmts q1 _
          split <;> simp
      · simp
    -- body_block_loop
    · intro p acc h1 h2
      simp only [body_block_loop]
      cases hc : p.current_token <;> try simp
      all_goals (
        apply bindR_ne_none
        · exact ihS p h1 (by omega)
        · intro s q1 hs
          obtain ⟨e1, c1, c2⟩ := after_statement_skip f hs h1
          apply ihBL
          · rw [e1]; exact c2
          · rw [e1]; omega)
    -- program_loop
    · intro p acc h1 h2
      simp only [program_loop]
      split
      · simp
      · apply bindR_ne_none
        · exact ihS p h1 (by omega)
        · intro s q1 hs
          obtain ⟨e1, c1, c2⟩ := after_statement_skip f hs h1
          apply ihPL
          · rw [e1]; exact c2
          · rw [e1]; omega

/-- C9: parsing always terminates: for every finite token sequence, `parse`
run with fuel linear in the sequence length completes with an `ok` or
`error` result (it never exhausts the fuel), because every successful
statement parse and every successful primary-expression parse strictly
advances the cursor while the cursor never exceeds the sequence length. -/
theorem parse_always_terminates :
    (∀ tokens : List Token, ∃ r : Except String (Program × Parser),
        parse (4 * tokens.length + 17) ⟨tokens, 0⟩ = some r) ∧
    (∀ (f : Nat) (p : Parser) (s : Statement) (q : Parser),
        parse_statement f p = some (.ok (s, q)) →
          q.tokens = p.tokens ∧ p.current < q.current ∧ q.current ≤ p.tokens.length) ∧
    (∀ (p : Parser) (e : Expression) (q : Parser),
        parse_primary p = .ok (e, q) →
          q.tokens = p.tokens ∧ p.current < q.current ∧ q.current ≤ p.tokens.length) := by
  refine ⟨?_, ?_, ?_⟩
  · intro tokens
    have hne : parse (4 * tokens.length + 17) ⟨tokens, 0⟩ ≠ none := by
      show parse ((4 * tokens.length + 16) + 1) ⟨tokens, 0⟩ ≠ none
      simp only [parse]
      apply bindR_ne_none
      · obtain ⟨hst, hsc, hsl⟩ :=
          Parser.skip_newlines_progressW (⟨tokens, 0⟩ : Parser)
        apply (statement_suff_all (4 * tokens.length + 16)).2.2.2.2.2.2.2.2.2
        · rw [hst]; exact hsl (Nat.zero_le _)
        · rw [hst]
          have hb := hsl (Nat.zero_le _)
          have he : (⟨tokens, 0⟩ : Parser).tokens.length = tokens.length := rfl
          rw [he]
          rw [he] at hb
          omega
      · intro stmts q _
        simp
    cases hp : parse (4 * tokens.length + 17) ⟨tokens, 0⟩ with
    | none => exact absurd hp hne
    | some r => exact ⟨r, rfl⟩
  · intro f p s q h
    exact (statement_progress_all f).1 h
  · intro p e q h
    exact parse_primary_progress h

/-- Witness for C9's progress conjuncts at concrete successful parses. -/
theorem parse_always_terminates_witness :
    ((⟨[Token.Show, Token.Number 1, Token.Eof], 2⟩ : Parser).tokens =
        (⟨[Token.Show, Token.Number 1, Token.Eof], 0⟩ : Parser).tokens ∧
      (⟨[Token.Show, Token.Number 1, Token.Eof], 0⟩ : Parser).current <
        (⟨[Token.Show, Token.Number 1, Token.Eof], 2⟩ : Parser).current ∧
      (⟨[Token.Show, Token.Number 1, Token.Eof], 2⟩ : Parser).current ≤
        (⟨[Token.Show, Token.Number 1, Token.Eof], 0⟩ : Parser).tokens.length) ∧
    ((⟨[Token.Number 7], 1⟩ : Parser).tokens =
        (⟨[Token.Number 7], 0⟩ : Parser).tokens ∧
      (⟨[Token.Number 7], 0⟩ : Parser).current <
        (⟨[Token.Number 7], 1⟩ : Parser).current ∧
      (⟨[Token.Number 7], 1⟩ : Parser).current ≤
        (⟨[Token.Number 7], 0⟩ : Parser).tokens.length) :=
  ⟨parse_always_terminates.2.1 9 ⟨[Token.Show, Token.Number 1, Token.Eof], 0⟩
      (.Show (.Number 1)) ⟨[Token.Show, Token.Number 1, Token.Eof], 2⟩ (by rfl),
   parse_always_terminates.2.2 ⟨[Token.Number 7], 0⟩ (.Number 7)
      ⟨[Token.Number 7], 1⟩ (by rfl)⟩
